import Mathlib

/-!
Verification development for the Huffman file compressor in
`src/Huffman Encoding/HuffmanEncoding.cpp`.

Shallow embedding conventions:

* A byte stream (`istream`) is a `List Int` of byte values `0..255`; `get()`
  on an exhausted stream returns `EOF = -1` in C++, which the loops of the
  source use only as their exit test, so the list models the useful content.
* A bit stream (`ibstream`) is a `List Int` of bits; `readBit()` on an
  exhausted stream returns `-1`, which we model explicitly (`readBitM`)
  because `decodeFile` keeps reading after exhaustion.
* `Node*` pointers are modelled by the inductive `NodeP`, whose `null`
  constructor is the C++ `NULL`.  Dereferencing `NULL` is undefined
  behaviour (a crash); functions that may dereference `NULL` return
  `Option` (`none` = crash), and the decode loop has a dedicated
  `DecodeResult.crash` outcome.
* `Map<ext_char, int>` (Stanford library) iterates its keys in ascending
  order; it is modelled as an association list kept sorted by key
  (`mapPut` inserts in order).  `PSEUDO_EOF = 256`, `NOT_A_CHAR = 257`,
  exactly the values of the assignment's header.
* The Stanford `PriorityQueue` dequeues the smallest priority first and is
  first-in-first-out among equal priorities; `pqDequeue` removes the
  earliest element attaining the minimal priority.
* Strings of code characters are lists of ASCII codes (`48 = '0'`,
  `49 = '1'`, `45 = '-'`), so `integerToString` is `intBytes`.
* Loops whose termination is not structural carry an explicit fuel
  argument chosen at the call site (`mergeNodes` uses the queue length,
  which the C++ loop strictly decreases; `decodeFile` takes a fuel bound
  because the C++ loop need not terminate at all on truncated input).
-/

set_option linter.unusedVariables false

namespace Huffman

/-- The sentinel symbol `PSEUDO_EOF` of the assignment (value 256). -/
def PSEUDO_EOF : Int := 256

/-- The marker `NOT_A_CHAR` stored in interior nodes (value 257). -/
def NOT_A_CHAR : Int := 257

/-! ### Stanford `Map<ext_char, V>`: sorted association lists -/

/-- Insertion into a key-sorted association list; models `map[k] = v` on the
Stanford `Map`, which keeps keys in ascending order. -/
def mapPut {α : Type} (k : Int) (v : α) : List (Int × α) → List (Int × α)
  | [] => [(k, v)]
  | (k2, v2) :: rest =>
    if k < k2 then (k, v) :: (k2, v2) :: rest
    else if k = k2 then (k, v) :: rest
    else (k2, v2) :: mapPut k v rest

/-- Models `map.containsKey k`. -/
def containsKey {α : Type} (k : Int) : List (Int × α) → Bool
  | [] => false
  | (k2, _) :: rest => if k = k2 then true else containsKey k rest

/-- Lookup with a default; models `map[k]` when the key is present (the
default stands for C++ value-initialisation on a miss). -/
def mapGetD {α : Type} (k : Int) (d : α) : List (Int × α) → α
  | [] => d
  | (k2, v) :: rest => if k = k2 then v else mapGetD k d rest

/-- Keys are strictly ascending (the representation invariant of the
Stanford `Map`, and its iteration order). -/
def sortedKeysB {α : Type} : List (Int × α) → Bool
  | [] => true
  | [_] => true
  | (k1, v1) :: (k2, v2) :: rest =>
    decide (k1 < k2) && sortedKeysB ((k2, v2) :: rest)

/-! ### `getFrequencyTable` -/

/-- The character-counting loop of `getFrequencyTable`: for each byte read,
increment its count if present, otherwise insert it with count 1. -/
def countLoop : List Int → List (Int × Int) → List (Int × Int)
  | [], m => m
  | c :: rest, m =>
    if containsKey c m then countLoop rest (mapPut c (mapGetD c 0 m + 1) m)
    else countLoop rest (mapPut c 1 m)

/-- `getFrequencyTable`: count all bytes of the source, then set
`freqTable[PSEUDO_EOF] = 1`. -/
def getFrequencyTable (s : List Int) : List (Int × Int) :=
  mapPut PSEUDO_EOF 1 (countLoop s [])

/-! ### Tree nodes and the priority queue -/

/-- A `Node*`: either `NULL` or a node with `character`, `weight`, `zero`
and `one` fields. -/
inductive NodeP : Type where
  | null : NodeP
  | mk (character : Int) (weight : Int) (zero : NodeP) (one : NodeP) : NodeP
deriving DecidableEq

/-- `n->weight` (the queue only ever holds non-null pointers, so the `null`
default is never consulted by the modelled code). -/
def weightN : NodeP → Int
  | NodeP.null => 0
  | NodeP.mk _ w _ _ => w

/-- A node with both children `NULL` (the leaves built by `enqueueNodes`). -/
def isLeafN : NodeP → Bool
  | NodeP.mk _ _ NodeP.null NodeP.null => true
  | _ => false

/-- The priority queue of `buildEncodingTree`: entries in insertion order,
paired with their priority. -/
abbrev PQ : Type := List (NodeP × Int)

/-- `pQueue.enqueue(n, p)`. -/
def pqEnqueue (n : NodeP) (p : Int) (q : PQ) : PQ := q ++ [(n, p)]

/-- `pQueue.dequeue()`: removes the earliest entry having the minimal
priority (the Stanford queue is first-in-first-out among equal
priorities). -/
def pqDequeue : PQ → Option ((NodeP × Int) × PQ)
  | [] => none
  | e :: rest =>
    match pqDequeue rest with
    | none => some (e, rest)
    | some (m, rest2) =>
      if e.2 ≤ m.2 then some (e, rest) else some (m, e :: rest2)

/-- `enqueueNodes`: one leaf per frequency-map entry (map order), priority =
weight = the frequency. -/
def enqueueNodes : List (Int × Int) → PQ → PQ
  | [], q => q
  | (c, w) :: rest, q => enqueueNodes rest (pqEnqueue (NodeP.mk c w NodeP.null NodeP.null) w q)

/-- The merge loop of `mergeNodes`, with fuel: break when one entry remains
(then dequeue it), otherwise dequeue two, merge them under a fresh
`NOT_A_CHAR` node (`zero` = first dequeued, `one` = second) and re-enqueue.
The C++ loop removes one queue entry per iteration, so fuel = initial queue
length always suffices; `none` models the library error of dequeuing an
empty queue (and the unreachable fuel-out case). -/
def mergeNodesF : Nat → PQ → Option NodeP
  | 0, _ => none
  | Nat.succ f, q =>
    if q.length = 1 then
      match pqDequeue q with
      | none => none
      | some (a, _) => some a.1
    else
      match pqDequeue q with
      | none => none
      | some (a, q1) =>
        match pqDequeue q1 with
        | none => none
        | some (b, q2) =>
          mergeNodesF f
            (pqEnqueue (NodeP.mk NOT_A_CHAR (weightN a.1 + weightN b.1) a.1 b.1)
              (weightN a.1 + weightN b.1) q2)

/-- `mergeNodes` on a queue (fuel instantiated with the queue length). -/
def mergeNodes (q : PQ) : Option NodeP := mergeNodesF q.length q

/-- `buildEncodingTree`. -/
def buildEncodingTree (m : List (Int × Int)) : Option NodeP :=
  mergeNodes (enqueueNodes m [])

/-! ### Decimal printing (`integerToString`, `operator<<`) -/

/-- Decimal digits of a natural number as ASCII byte values, with fuel
(fuel = the number itself always suffices). -/
def natBytesF : Nat → Nat → List Int
  | 0, n => [((48 + n % 10 : Nat) : Int)]
  | Nat.succ f, n =>
    if n < 10 then [((48 + n : Nat) : Int)]
    else natBytesF f (n / 10) ++ [((48 + n % 10 : Nat) : Int)]

/-- Decimal digits of a natural number as ASCII byte values. -/
def natBytes (n : Nat) : List Int := natBytesF n n

/-- Decimal rendering of an `int` as ASCII byte values: both Stanford's
`integerToString` and stream `operator<<` print this form. -/
def intBytes (i : Int) : List Int :=
  if i < 0 then 45 :: natBytes i.natAbs else natBytes i.toNat

/-! ### Tree walks (`searchCodeInTree`, `isCorrectCode`, `searchCharacterInTree`) -/

/-- Following a code (list of ASCII characters) from a node pointer, taking
the `zero` child on `'0'` (48) and the `one` child otherwise; `none` is a
`NULL` dereference while stepping, `some p` the pointer reached (possibly
`NULL`). -/
def walkChars : NodeP → List Int → Option NodeP
  | p, [] => some p
  | NodeP.null, _ :: _ => none
  | NodeP.mk _ _ z o, c :: rest => walkChars (if c = 48 then z else o) rest

/-- `searchCodeInTree`: walk the code from the root and return the final
node's `character`; `none` models the `NULL` dereference (crash) when the
walk runs off the tree. -/
def searchCodeInTree (root : NodeP) (code : List Int) : Option Int :=
  match walkChars root code with
  | some (NodeP.mk ch _ _ _) => some ch
  | _ => none

/-- `isCorrectCode`: walk `code` from `fromRoot` and compare the final
node's `character` with `character`; `none` is the crash case. -/
def isCorrectCode (fromRoot : NodeP) (code : List Int) (character : Int) : Option Bool :=
  match walkChars fromRoot code with
  | some (NodeP.mk ch _ _ _) => some (decide (ch = character))
  | _ => none

/-- `searchCharacterInTree`: guess-and-verify search for the code of
`character`.  Returns `some []` at any node whose `character` field is not
`NOT_A_CHAR`, otherwise tries `'0' ++ search(zero)`, verifies it with
`isCorrectCode`, then `'1' ++ search(one)`, and falls back to the empty
string; `none` models a crash (`NULL` dereference) in a recursive call or
verification. -/
def searchCharacterInTree : NodeP → Int → Option (List Int)
  | NodeP.null, _ => none
  | NodeP.mk ch w z o, character =>
    if ch ≠ NOT_A_CHAR then some []
    else
      match searchCharacterInTree z character with
      | none => none
      | some s0 =>
        match isCorrectCode (NodeP.mk ch w z o) (48 :: s0) character with
        | none => none
        | some true => some (48 :: s0)
        | some false =>
          match searchCharacterInTree o character with
          | none => none
          | some s1 =>
            match isCorrectCode (NodeP.mk ch w z o) (49 :: s1) character with
            | none => none
            | some true => some (49 :: s1)
            | some false => some []

/-! ### `writeBits`, `encodeFile` -/

/-- `writeBits`: each `'0'` character writes bit 0, anything else bit 1. -/
def writeBits (code : List Int) : List Int :=
  code.map (fun c => if c = 48 then 0 else 1)

/-- The loop of `encodeFile`, threading the memoisation map
`encodingMap : Map<ext_char, string>`: on a hit take the cached code, on a
miss call `searchCharacterInTree` and cache the result; after the input is
exhausted append the code of `PSEUDO_EOF`.  Result is the emitted bit list,
`none` if a search crashed. -/
def encodeFileGo (tree : NodeP) : List Int → List (Int × List Int) → Option (List Int)
  | [], _ =>
    match searchCharacterInTree tree PSEUDO_EOF with
    | none => none
    | some code => some (writeBits code)
  | c :: rest, cache =>
    if containsKey c cache then
      match encodeFileGo tree rest cache with
      | none => none
      | some bits => some (writeBits (mapGetD c [] cache) ++ bits)
    else
      match searchCharacterInTree tree c with
      | none => none
      | some code =>
        match encodeFileGo tree rest (mapPut c code cache) with
        | none => none
        | some bits => some (writeBits code ++ bits)

/-- `encodeFile` (the memoisation map starts empty). -/
def encodeFile (tree : NodeP) (input : List Int) : Option (List Int) :=
  encodeFileGo tree input []

/-! ### `decodeFile` -/

/-- `infile.readBit()`: the next bit and the rest of the stream, or `-1`
when the stream is exhausted (and it stays exhausted). -/
def readBitM : List Int → Int × List Int
  | [] => (-1, [])
  | b :: r => (b, r)

/-- Outcome of the `decodeFile` loop: normal exit at `PSEUDO_EOF` (with the
bytes written and the unread bits), a crash (`NULL` dereference in
`searchCodeInTree`), or fuel exhaustion (the C++ loop running on). -/
inductive DecodeResult : Type where
  | ok (out : List Int) (rest : List Int) : DecodeResult
  | crash (out : List Int) : DecodeResult
  | spin (out : List Int) : DecodeResult
deriving DecidableEq

/-- The loop of `decodeFile`: read a bit, append `integerToString bit` to
the accumulated code, search the code from the root; break on `PSEUDO_EOF`,
emit and reset the code on any other real character, keep reading on
`NOT_A_CHAR`. -/
def decodeFileGo (tree : NodeP) : Nat → List Int → List Int → List Int → DecodeResult
  | 0, _, _, out => DecodeResult.spin out
  | Nat.succ f, bits, code, out =>
    let br := readBitM bits
    let code2 := code ++ intBytes br.1
    match searchCodeInTree tree code2 with
    | none => DecodeResult.crash out
    | some character =>
      if character = PSEUDO_EOF then DecodeResult.ok out br.2
      else if character ≠ NOT_A_CHAR then decodeFileGo tree f br.2 [] (out ++ [character])
      else decodeFileGo tree f br.2 code2 out

/-- `decodeFile` (code accumulator and output start empty). -/
def decodeFile (tree : NodeP) (fuel : Nat) (bits : List Int) : DecodeResult :=
  decodeFileGo tree fuel bits [] []

/-! ### Header codec (`writeFileHeader`, `readFileHeader`) -/

/-- The error raised by `writeFileHeader` when `PSEUDO_EOF` is absent
(“No PSEUDO_EOF defined.”). -/
inductive HdrErr : Type where
  | missingSentinel : HdrErr
deriving DecidableEq

/-- The letter/frequency loop of `writeFileHeader`: skip `PSEUDO_EOF`,
otherwise write the raw symbol byte (`char(ch)`, i.e. the value mod 256),
its frequency in decimal, and one space. -/
def writeEntriesH : List (Int × Int) → List Int → List Int
  | [], out => out
  | (ch, f) :: rest, out =>
    if ch = PSEUDO_EOF then writeEntriesH rest out
    else writeEntriesH rest (out ++ [ch % 256] ++ intBytes f ++ [32])

/-- `writeFileHeader`: error out (before writing anything) if the map lacks
`PSEUDO_EOF`; otherwise write `size() - 1`, a space, and the entry pairs.
The error carries the sink contents at the moment of failure. -/
def writeFileHeader (outfile : List Int) (m : List (Int × Int)) :
    Except (HdrErr × List Int) (List Int) :=
  if ¬ containsKey PSEUDO_EOF m then Except.error (HdrErr.missingSentinel, outfile)
  else Except.ok (writeEntriesH m (outfile ++ intBytes ((m.length : Int) - 1) ++ [32]))

/-- Whitespace for formatted `operator>>` extraction. -/
def isWS (b : Int) : Bool :=
  b = 32 || b = 9 || b = 10 || b = 11 || b = 12 || b = 13

/-- An ASCII decimal digit. -/
def isDigitB (b : Int) : Bool := 48 ≤ b && b ≤ 57

/-- Value of a digit run (most significant first). -/
def digitsToNat (l : List Int) : Nat :=
  l.foldl (fun a b => 10 * a + (b - 48).toNat) 0

/-- Longest leading digit run and its value; `none` when there is no
leading digit (the stream would enter the fail state). -/
def parseDigits (s : List Int) : Option (Nat × List Int) :=
  match s.takeWhile isDigitB with
  | [] => none
  | _ :: _ => some (digitsToNat (s.takeWhile isDigitB), s.dropWhile isDigitB)

/-- Formatted `int` extraction (`infile >> n`): skip whitespace, optional
sign, then at least one digit. -/
def parseIntB (s : List Int) : Option (Int × List Int) :=
  match s.dropWhile isWS with
  | [] => none
  | b :: r =>
    if b = 45 then
      match parseDigits r with
      | none => none
      | some (n, rest) => some (-(n : Int), rest)
    else if b = 43 then
      match parseDigits r with
      | none => none
      | some (n, rest) => some ((n : Int), rest)
    else
      match parseDigits (b :: r) with
      | none => none
      | some (n, rest) => some ((n : Int), rest)

/-- `infile.get()`: one raw byte; `none` models reading past the end (the
C++ stream returns `EOF` and subsequent parses misbehave). -/
def getByte : List Int → Option (Int × List Int)
  | [] => none
  | b :: r => some (b, r)

/-- The entry-reading loop of `readFileHeader`: `numValues` times, read a
raw byte, a decimal frequency and the following space, and store the
pair. -/
def readEntries : Nat → List Int → List (Int × Int) → Option (List (Int × Int) × List Int)
  | 0, s, m => some (m, s)
  | Nat.succ k, s, m =>
    match getByte s with
    | none => none
    | some (ch, s1) =>
      match parseIntB s1 with
      | none => none
      | some (f, s2) =>
        match getByte s2 with
        | none => none
        | some (_, s3) => readEntries k s3 (mapPut ch f m)

/-- `readFileHeader`: read `numValues`, skip one byte, read the entries,
then reinsert `PSEUDO_EOF` with count 1. -/
def readFileHeader (s : List Int) : Option (List (Int × Int) × List Int) :=
  match parseIntB s with
  | none => none
  | some (nv, s1) =>
    match getByte s1 with
    | none => none
    | some (_, s2) =>
      match readEntries nv.toNat s2 [] with
      | none => none
      | some (m, s3) => some (mapPut PSEUDO_EOF 1 m, s3)

/-! ### Bit packing (the `obstream`/`ibstream` byte boundary) -/

/-- The byte holding a chunk of up to 8 bits (first bit in the lowest
position; missing bits read back as the zero padding the bit stream flushes
with). -/
def byteOfBits : List Int → Int
  | [] => 0
  | b :: r => b + 2 * byteOfBits r

/-- Packing a bit list into bytes, 8 at a time, with fuel (fuel = the bit
count suffices). -/
def packBitsF : Nat → List Int → List Int
  | 0, _ => []
  | Nat.succ f, bits =>
    match bits with
    | [] => []
    | _ :: _ => byteOfBits (bits.take 8) :: packBitsF f (bits.drop 8)

/-- Packing a bit list into bytes (the final partial byte is zero-padded). -/
def packBits (bits : List Int) : List Int := packBitsF bits.length bits

/-- The 8 bits of a byte, lowest position first. -/
def bitsOfByteGo : Nat → Int → List Int
  | 0, _ => []
  | Nat.succ k, b => (b % 2) :: bitsOfByteGo k (b / 2)

/-- The 8 bits of a byte. -/
def bitsOfByte (b : Int) : List Int := bitsOfByteGo 8 b

/-- All bits of a byte list. -/
def unpackBits (bytes : List Int) : List Int := (bytes.map bitsOfByte).flatten

/-! ### `compress` and `decompress` -/

/-- `compress`: frequency table, header, tree, then the encoded body packed
into bytes after the header.  `none` collects the failure paths (missing
sentinel, empty-queue dequeue, search crash), none of which a real input
reaches. -/
def compress (s : List Int) : Option (List Int) :=
  let frequencyTable := getFrequencyTable s
  match writeFileHeader [] frequencyTable with
  | Except.error _ => none
  | Except.ok header =>
    match buildEncodingTree frequencyTable with
    | none => none
    | some rootEncodingTree =>
      match encodeFile rootEncodingTree s with
      | none => none
      | some bits => some (header ++ packBits bits)

/-- Outcome of `decompress`. -/
inductive RunResult : Type where
  | ok (out : List Int) : RunResult
  | crash (out : List Int) : RunResult
  | spin (out : List Int) : RunResult
  | badHeader : RunResult
  | badTree : RunResult
deriving DecidableEq

/-- `decompress`: read the header, rebuild the tree, decode the remaining
bytes as a bit stream. -/
def decompress (fuel : Nat) (file : List Int) : RunResult :=
  match readFileHeader file with
  | none => RunResult.badHeader
  | some (m, rest) =>
    match buildEncodingTree m with
    | none => RunResult.badTree
    | some rootEncodingTree =>
      match decodeFile rootEncodingTree fuel (unpackBits rest) with
      | DecodeResult.ok out _ => RunResult.ok out
      | DecodeResult.crash out => RunResult.crash out
      | DecodeResult.spin out => RunResult.spin out

/-! ### Spec-side reference definitions -/

/-- Modelled from the spec (§4.5 Decoder), for the refinement claim: keep a
cursor starting at the tree root; per consumed bit move to the `zero` or
`one` child; on reaching a leaf either stop (sentinel) or emit the symbol
and reset the cursor to the root.  `none` when the bits run out (or the
walk is undefined) before the sentinel leaf is reached. -/
def refDecode (root : NodeP) : List Int → NodeP → List Int → Option (List Int × List Int)
  | [], _, _ => none
  | b :: rest, cur, out =>
    match cur with
    | NodeP.null => none
    | NodeP.mk _ _ z o =>
      match (if b = 0 then z else o) with
      | NodeP.null => none
      | NodeP.mk ch w2 z2 o2 =>
        if isLeafN (NodeP.mk ch w2 z2 o2) then
          if ch = PSEUDO_EOF then some (out, rest)
          else refDecode root rest root (out ++ [ch])
        else refDecode root rest (NodeP.mk ch w2 z2 o2) out

/-- The symbol at the end of a root-to-leaf path, the path given as the
sequence of branch choices (`false` = `zero`, `true` = `one`); `some` only
when the path lands exactly on a leaf.  This is the spec's notion of the
leaf's code (§3, Code). -/
def pathLeaf : NodeP → List Bool → Option Int
  | NodeP.mk ch _ NodeP.null NodeP.null, [] => some ch
  | NodeP.mk _ _ z o, d :: p => pathLeaf (if d then o else z) p
  | _, _ => none

/-- The multiset of leaf symbols of a tree (interior nodes contribute their
subtrees' leaves). -/
def leafSyms : NodeP → List Int
  | NodeP.null => []
  | NodeP.mk ch _ NodeP.null NodeP.null => [ch]
  | NodeP.mk _ _ z o => leafSyms z ++ leafSyms o

/-- Well-formed encoding tree: every node is either a leaf (both children
`NULL`, character a real symbol) or interior (both children nodes,
character `NOT_A_CHAR`).  Trees built by `buildEncodingTree` from a byte
frequency map are of this shape. -/
def wfB : NodeP → Bool
  | NodeP.null => false
  | NodeP.mk ch _ NodeP.null NodeP.null => decide (ch ≠ NOT_A_CHAR)
  | NodeP.mk ch _ z o => decide (ch = NOT_A_CHAR) && wfB z && wfB o

/-! ### Auxiliary predicates and spec-side closed forms -/

/-- The bytes one frequency-map entry contributes to the header: nothing
for `PSEUDO_EOF`, otherwise the raw symbol byte, the decimal frequency and
one space (the closed form of the `writeFileHeader` loop body). -/
def entryBytes (e : Int × Int) : List Int :=
  if e.1 = PSEUDO_EOF then [] else e.1 % 256 :: (intBytes e.2 ++ [32])

/-- A header-writable frequency map: sorted (the `Map` representation
invariant), every entry either the sentinel with count 1 or keyed by a
byte value, and the sentinel present. -/
def wfHdr (m : List (Int × Int)) : Bool :=
  sortedKeysB m &&
    m.all (fun e => (decide (e.1 = PSEUDO_EOF) && decide (e.2 = 1)) ||
      (decide (0 ≤ e.1) && decide (e.1 ≤ 255))) &&
    containsKey PSEUDO_EOF m

/-- The frequency maps of claim C5: non-sentinel keys are byte values with
positive counts, and `PSEUDO_EOF` is present with count 1. -/
def wfFreqB (m : List (Int × Int)) : Bool :=
  sortedKeysB m &&
    m.all (fun e => (decide (e.1 = PSEUDO_EOF) && decide (e.2 = 1)) ||
      (decide (0 ≤ e.1) && decide (e.1 ≤ 255) && decide (1 ≤ e.2))) &&
    containsKey PSEUDO_EOF m

/-! ## Lemmas: lists and decimal digits -/

theorem takeWhile_append_stop (p : Int → Bool) :
    ∀ (l1 : List Int) (y : Int) (l2 : List Int), (∀ x ∈ l1, p x = true) → p y = false →
      (l1 ++ y :: l2).takeWhile p = l1 := by
  intro l1
  induction l1 with
  | nil => intro y l2 h1 hy; simp [List.takeWhile_cons, hy]
  | cons x l ih =>
    intro y l2 h1 hy
    have hx : p x = true := h1 x (by simp)
    simp only [List.cons_append, List.takeWhile_cons, hx, if_true]
    rw [ih y l2 (fun a ha => h1 a (by simp [ha])) hy]

theorem dropWhile_append_stop (p : Int → Bool) :
    ∀ (l1 : List Int) (y : Int) (l2 : List Int), (∀ x ∈ l1, p x = true) → p y = false →
      (l1 ++ y :: l2).dropWhile p = y :: l2 := by
  intro l1
  induction l1 with
  | nil => intro y l2 h1 hy; simp [List.dropWhile_cons, hy]
  | cons x l ih =>
    intro y l2 h1 hy
    have hx : p x = true := h1 x (by simp)
    simp only [List.cons_append, List.dropWhile_cons, hx, if_true]
    exact ih y l2 (fun a ha => h1 a (by simp [ha])) hy

theorem takeWhile_all (p : Int → Bool) :
    ∀ (l : List Int), (∀ x ∈ l, p x = true) → l.takeWhile p = l := by
  intro l
  induction l with
  | nil => intro h; rfl
  | cons x l ih =>
    intro h
    have hx : p x = true := h x (by simp)
    simp only [List.takeWhile_cons, hx, if_true]
    rw [ih (fun a ha => h a (by simp [ha]))]

theorem dropWhile_all (p : Int → Bool) :
    ∀ (l : List Int), (∀ x ∈ l, p x = true) → l.dropWhile p = [] := by
  intro l
  induction l with
  | nil => intro h; rfl
  | cons x l ih =>
    intro h
    have hx : p x = true := h x (by simp)
    simp only [List.dropWhile_cons, hx, if_true]
    exact ih (fun a ha => h a (by simp [ha]))

theorem natBytesF_digits :
    ∀ (f n : Nat), ∀ x ∈ natBytesF f n, 48 ≤ x ∧ x ≤ 57 := by
  intro f
  induction f with
  | zero =>
    intro n x hx
    simp only [natBytesF, List.mem_singleton] at hx
    subst hx
    have : n % 10 < 10 := Nat.mod_lt _ (by omega)
    omega
  | succ f ih =>
    intro n x hx
    by_cases h10 : n < 10
    · simp only [natBytesF, if_pos h10, List.mem_singleton] at hx
      subst hx; omega
    · simp only [natBytesF, if_neg h10, List.mem_append, List.mem_singleton] at hx
      rcases hx with hx | hx
      · exact ih _ x hx
      · subst hx
        have : n % 10 < 10 := Nat.mod_lt _ (by omega)
        omega

theorem natBytes_digits (n : Nat) : ∀ x ∈ natBytes n, 48 ≤ x ∧ x ≤ 57 :=
  natBytesF_digits n n

theorem natBytesF_ne_nil (f n : Nat) : natBytesF f n ≠ [] := by
  cases f with
  | zero => simp [natBytesF]
  | succ f =>
    by_cases h10 : n < 10 <;> simp [natBytesF, h10]

theorem digitsToNat_append_one (l : List Int) (d : Int) :
    digitsToNat (l ++ [d]) = 10 * digitsToNat l + (d - 48).toNat := by
  simp [digitsToNat, List.foldl_append]

theorem digitsToNat_natBytesF :
    ∀ (f n : Nat), n ≤ f + 1 → digitsToNat (natBytesF f n) = n := by
  intro f
  induction f with
  | zero =>
    intro n hn
    have hn1 : n % 10 = n := Nat.mod_eq_of_lt (by omega)
    simp only [natBytesF, digitsToNat, List.foldl_cons, List.foldl_nil, hn1]
    omega
  | succ f ih =>
    intro n hn
    by_cases h10 : n < 10
    · simp only [natBytesF, if_pos h10, digitsToNat, List.foldl_cons, List.foldl_nil]
      omega
    · simp only [natBytesF, if_neg h10]
      rw [digitsToNat_append_one, ih (n / 10) (by omega)]
      have : n % 10 < 10 := Nat.mod_lt _ (by omega)
      omega

theorem digitsToNat_natBytes (n : Nat) : digitsToNat (natBytes n) = n :=
  digitsToNat_natBytesF n n (by omega)

theorem parseDigits_natBytes (n : Nat) :
    ∀ (rest : List Int), (∀ y, rest.head? = some y → isDigitB y = false) →
      parseDigits (natBytes n ++ rest) = some (n, rest) := by
  intro rest hrest
  have hdig : ∀ x ∈ natBytes n, isDigitB x = true := by
    intro x hx
    have := natBytes_digits n x hx
    simp only [isDigitB, Bool.and_eq_true, decide_eq_true_eq]
    omega
  have htw : (natBytes n ++ rest).takeWhile isDigitB = natBytes n := by
    cases rest with
    | nil => rw [List.append_nil]; exact takeWhile_all _ _ hdig
    | cons y l => exact takeWhile_append_stop _ _ _ _ hdig (hrest y rfl)
  have hdw : (natBytes n ++ rest).dropWhile isDigitB = rest := by
    cases rest with
    | nil => rw [List.append_nil]; exact dropWhile_all _ _ hdig
    | cons y l => exact dropWhile_append_stop _ _ _ _ hdig (hrest y rfl)
  unfold parseDigits
  rw [htw, hdw, digitsToNat_natBytes]
  cases hb : natBytes n with
  | nil => exact absurd hb (natBytesF_ne_nil n n)
  | cons a l => rfl

theorem parseIntB_intBytes (i : Int) :
    ∀ (rest : List Int), (∀ y, rest.head? = some y → isDigitB y = false) →
      parseIntB (intBytes i ++ rest) = some (i, rest) := by
  intro rest hrest
  by_cases hneg : i < 0
  · have habs : intBytes i = 45 :: natBytes i.natAbs := by simp [intBytes, hneg]
    rw [habs]
    have hdw : ((45 : Int) :: (natBytes i.natAbs ++ rest)).dropWhile isWS
        = 45 :: (natBytes i.natAbs ++ rest) := by
      simp [List.dropWhile_cons, isWS]
    simp only [List.cons_append, parseIntB, hdw, if_pos rfl]
    rw [parseDigits_natBytes _ rest hrest]
    show some (-(i.natAbs : Int), rest) = some (i, rest)
    have h1 : (-(i.natAbs : Int)) = i := by omega
    rw [h1]
  · have habs : intBytes i = natBytes i.toNat := by simp [intBytes, hneg]
    rw [habs]
    cases hb : natBytes i.toNat with
    | nil => exact absurd hb (natBytesF_ne_nil _ _)
    | cons a l =>
      have ha : 48 ≤ a ∧ a ≤ 57 := natBytes_digits _ a (by rw [hb]; simp)
      have hws : isWS a = false := by
        simp only [isWS, Bool.or_eq_false_iff, decide_eq_false_iff_not]
        omega
      have hdw : (a :: (l ++ rest)).dropWhile isWS = a :: (l ++ rest) := by
        simp [List.dropWhile_cons, hws]
      simp only [List.cons_append, parseIntB, hdw]
      have ha45 : ¬ (a = 45) := by omega
      have ha43 : ¬ (a = 43) := by omega
      simp only [if_neg ha45, if_neg ha43]
      have hp := parseDigits_natBytes i.toNat rest hrest
      rw [hb] at hp
      simp only [List.cons_append] at hp
      rw [hp]
      show some ((i.toNat : Int), rest) = some (i, rest)
      have h1 : ((i.toNat : Nat) : Int) = i := by omega
      rw [h1]

/-! ## Lemmas: sorted association lists -/

theorem mem_mapPut {α : Type} (k : Int) (v : α) :
    ∀ (m : List (Int × α)) (e : Int × α), e ∈ mapPut k v m → e = (k, v) ∨ e ∈ m := by
  intro m
  induction m with
  | nil => intro e he; simp [mapPut] at he; simp [he]
  | cons hd m ih =>
    intro e he
    rcases hd with ⟨k2, v2⟩
    by_cases h1 : k < k2
    · simp only [mapPut, if_pos h1, List.mem_cons] at he
      rcases he with he | he | he
      · exact Or.inl he
      · exact Or.inr (by simp [he])
      · exact Or.inr (by simp [he])
    · by_cases h2 : k = k2
      · simp only [mapPut, if_neg h1, if_pos h2, List.mem_cons] at he
        rcases he with he | he
        · exact Or.inl he
        · exact Or.inr (by simp [he])
      · simp only [mapPut, if_neg h1, if_neg h2, List.mem_cons] at he
        rcases he with he | he
        · exact Or.inr (by simp [he])
        · rcases ih e he with h | h
          · exact Or.inl h
          · exact Or.inr (by simp [h])

theorem containsKey_mapPut_self {α : Type} (k : Int) (v : α) :
    ∀ (m : List (Int × α)), containsKey k (mapPut k v m) = true := by
  intro m
  induction m with
  | nil => simp [mapPut, containsKey]
  | cons hd m ih =>
    rcases hd with ⟨k2, v2⟩
    by_cases h1 : k < k2
    · simp [mapPut, if_pos h1, containsKey]
    · by_cases h2 : k = k2
      · simp [mapPut, if_neg h1, if_pos h2, containsKey]
      · simp [mapPut, if_neg h1, if_neg h2, containsKey, h2, ih]

theorem containsKey_cons {α : Type} (c a : Int) (b : α) (m : List (Int × α)) :
    containsKey c ((a, b) :: m) = if c = a then true else containsKey c m := rfl

theorem containsKey_mapPut_mono {α : Type} (c k : Int) (v : α) :
    ∀ (m : List (Int × α)), containsKey c m = true → containsKey c (mapPut k v m) = true := by
  intro m
  induction m with
  | nil => intro h; simp [containsKey] at h
  | cons hd m ih =>
    intro h
    rcases hd with ⟨k2, v2⟩
    by_cases h1 : k < k2
    · simp only [mapPut, if_pos h1, containsKey_cons]
      by_cases hck : c = k
      · simp [hck]
      · rw [if_neg hck]; exact h
    · by_cases h2 : k = k2
      · simp only [mapPut, if_neg h1, if_pos h2, containsKey_cons]
        rw [containsKey_cons] at h
        by_cases hck : c = k
        · simp [hck]
        · rw [if_neg hck]
          rw [if_neg (h2 ▸ hck)] at h
          exact h
      · simp only [mapPut, if_neg h1, if_neg h2, containsKey_cons]
        rw [containsKey_cons] at h
        by_cases hck : c = k2
        · simp [hck]
        · rw [if_neg hck]; rw [if_neg hck] at h; exact ih h

theorem mapPut_append_big {α : Type} (k : Int) (v : α) :
    ∀ (m : List (Int × α)), (∀ e ∈ m, e.1 < k) → mapPut k v m = m ++ [(k, v)] := by
  intro m
  induction m with
  | nil => intro h; rfl
  | cons hd m ih =>
    intro h
    rcases hd with ⟨k2, v2⟩
    have hk2 : k2 < k := h (k2, v2) (by simp)
    have h1 : ¬ (k < k2) := by omega
    have h2 : ¬ (k = k2) := by omega
    simp only [mapPut, if_neg h1, if_neg h2, List.cons_append, List.cons.injEq, true_and]
    exact ih (fun e he => h e (by simp [he]))

theorem sortedB_cons_iff {α : Type} (k : Int) (v : α) (m : List (Int × α)) :
    sortedKeysB ((k, v) :: m) = true ↔ sortedKeysB m = true ∧ ∀ e ∈ m, k < e.1 := by
  induction m generalizing k v with
  | nil => simp [sortedKeysB]
  | cons hd m ih =>
    rcases hd with ⟨k2, v2⟩
    constructor
    · intro h
      simp only [sortedKeysB, Bool.and_eq_true, decide_eq_true_eq] at h
      rcases h with ⟨hk, hs⟩
      refine ⟨hs, ?_⟩
      intro e he
      rcases List.mem_cons.mp he with he | he
      · subst he; exact hk
      · have := ((ih k2 v2).mp hs).2 e he
        omega
    · intro ⟨hs, hlt⟩
      simp only [sortedKeysB, Bool.and_eq_true, decide_eq_true_eq]
      exact ⟨hlt (k2, v2) (by simp), hs⟩

theorem sortedB_append_right {α : Type} :
    ∀ (l1 l2 : List (Int × α)), sortedKeysB (l1 ++ l2) = true → sortedKeysB l2 = true := by
  intro l1
  induction l1 with
  | nil => intro l2 h; exact h
  | cons hd l1 ih =>
    intro l2 h
    rcases hd with ⟨k, v⟩
    rw [List.cons_append, sortedB_cons_iff] at h
    exact ih l2 h.1

theorem sortedB_append_lt {α : Type} :
    ∀ (l1 : List (Int × α)) (e : Int × α) (l2 : List (Int × α)),
      sortedKeysB (l1 ++ e :: l2) = true → ∀ x ∈ l1, x.1 < e.1 := by
  intro l1
  induction l1 with
  | nil => intro e l2 h x hx; simp at hx
  | cons hd l1 ih =>
    intro e l2 h x hx
    rcases hd with ⟨k, v⟩
    rw [List.cons_append, sortedB_cons_iff] at h
    rcases List.mem_cons.mp hx with hx | hx
    · subst hx
      exact h.2 e (by simp)
    · exact ih e l2 h.1 x hx

theorem sortedB_mapPut {α : Type} (k : Int) (v : α) :
    ∀ (m : List (Int × α)), sortedKeysB m = true → sortedKeysB (mapPut k v m) = true := by
  intro m
  induction m with
  | nil => intro h; simp [mapPut, sortedKeysB]
  | cons hd m ih =>
    intro h
    rcases hd with ⟨k2, v2⟩
    rw [sortedB_cons_iff] at h
    by_cases h1 : k < k2
    · simp only [mapPut, if_pos h1]
      rw [sortedB_cons_iff]
      constructor
      · rw [sortedB_cons_iff]; exact h
      · intro e he
        rcases List.mem_cons.mp he with he | he
        · subst he; exact h1
        · have := h.2 e he; omega
    · by_cases h2 : k = k2
      · simp only [mapPut, if_neg h1, if_pos h2]
        rw [sortedB_cons_iff]
        refine ⟨h.1, ?_⟩
        intro e he
        have := h.2 e he
        omega
      · simp only [mapPut, if_neg h1, if_neg h2]
        rw [sortedB_cons_iff]
        constructor
        · exact ih h.1
        · intro e he
          rcases mem_mapPut k v m e he with he2 | he2
          · subst he2; omega
          · exact h.2 e he2

theorem containsKey_iff_mem {α : Type} (k : Int) :
    ∀ (m : List (Int × α)), containsKey k m = true ↔ ∃ v, (k, v) ∈ m := by
  intro m
  induction m with
  | nil => simp [containsKey]
  | cons hd m ih =>
    rcases hd with ⟨k2, v2⟩
    by_cases hk : k = k2
    · subst hk
      simp [containsKey]
    · simp only [containsKey, if_neg hk, ih]
      constructor
      · intro ⟨v, hv⟩; exact ⟨v, by simp [hv]⟩
      · intro ⟨v, hv⟩
        rcases List.mem_cons.mp hv with hv | hv
        · exact absurd (congrArg Prod.fst hv) (by simp [hk])
        · exact ⟨v, hv⟩

theorem insertAll_sorted {α : Type} :
    ∀ (l m0 : List (Int × α)), sortedKeysB (m0 ++ l) = true →
      List.foldl (fun m e => mapPut e.1 e.2 m) m0 l = m0 ++ l := by
  intro l
  induction l with
  | nil => intro m0 h; simp
  | cons e l ih =>
    intro m0 h
    have hlt : ∀ x ∈ m0, x.1 < e.1 := sortedB_append_lt m0 e l h
    have hput : mapPut e.1 e.2 m0 = m0 ++ [(e.1, e.2)] := mapPut_append_big _ _ m0 hlt
    simp only [List.foldl_cons, hput]
    have hre : (m0 ++ [(e.1, e.2)]) ++ l = m0 ++ e :: l := by simp
    rw [ih (m0 ++ [(e.1, e.2)]) (by rw [hre]; exact h), hre]

/-! ## Lemmas: the header codec -/

theorem sortedB_append_left {α : Type} :
    ∀ (l1 l2 : List (Int × α)), sortedKeysB (l1 ++ l2) = true → sortedKeysB l1 = true := by
  intro l1
  induction l1 with
  | nil => intro l2 h; rfl
  | cons hd l1 ih =>
    intro l2 h
    rcases hd with ⟨k, v⟩
    rw [List.cons_append, sortedB_cons_iff] at h
    rw [sortedB_cons_iff]
    exact ⟨ih l2 h.1, fun e he => h.2 e (by simp [he])⟩

theorem writeEntriesH_closed :
    ∀ (l : List (Int × Int)) (out : List Int),
      writeEntriesH l out = out ++ (l.map entryBytes).flatten := by
  intro l
  induction l with
  | nil => intro out; simp [writeEntriesH]
  | cons e l ih =>
    intro out
    rcases e with ⟨ch, f⟩
    by_cases hch : ch = PSEUDO_EOF
    · simp only [writeEntriesH, if_pos hch, ih, List.map_cons, List.flatten_cons, entryBytes, hch,
        if_pos rfl]
      simp
    · simp only [writeEntriesH, if_neg hch, ih, List.map_cons, List.flatten_cons, entryBytes]
      simp

theorem writeFileHeader_ok (m : List (Int × Int)) (out : List Int)
    (h : containsKey PSEUDO_EOF m = true) :
    writeFileHeader out m =
      Except.ok (out ++ intBytes ((m.length : Int) - 1) ++ [32] ++ (m.map entryBytes).flatten) := by
  simp only [writeFileHeader, h]
  rw [if_neg (by simp)]
  rw [writeEntriesH_closed]

theorem wfHdr_decomp (m : List (Int × Int)) (h : wfHdr m = true) :
    m = (m.filter (fun e => decide (e.1 ≠ PSEUDO_EOF))) ++ [(PSEUDO_EOF, 1)] ∧
      ∀ e ∈ m.filter (fun e => decide (e.1 ≠ PSEUDO_EOF)), 0 ≤ e.1 ∧ e.1 ≤ 255 := by
  induction m with
  | nil => simp [wfHdr, containsKey] at h
  | cons hd m ih =>
    simp only [wfHdr, Bool.and_eq_true, List.all_eq_true] at h
    rcases h with ⟨⟨hsort, hall⟩, hck⟩
    rcases hd with ⟨k, v⟩
    rw [sortedB_cons_iff] at hsort
    by_cases hk : k = PSEUDO_EOF
    · subst hk
      have hv : v = 1 := by
        have := hall (PSEUDO_EOF, v) (by simp)
        simp only [Bool.or_eq_true, Bool.and_eq_true, decide_eq_true_eq] at this
        rcases this with h1 | h1
        · exact h1.2
        · exfalso; simp [PSEUDO_EOF] at h1
      have hm : m = [] := by
        cases m with
        | nil => rfl
        | cons e2 m2 =>
          exfalso
          have hgt := hsort.2 e2 (by simp)
          have := hall e2 (by simp)
          simp only [Bool.or_eq_true, Bool.and_eq_true, decide_eq_true_eq] at this
          simp only [PSEUDO_EOF] at hgt
          rcases this with h1 | h1
          · simp [PSEUDO_EOF] at h1; omega
          · omega
      subst hm; subst hv
      constructor
      · simp
      · simp
    · have hbyte : 0 ≤ k ∧ k ≤ 255 := by
        have := hall (k, v) (by simp)
        simp only [Bool.or_eq_true, Bool.and_eq_true, decide_eq_true_eq] at this
        rcases this with h1 | h1
        · exact absurd h1.1 hk
        · exact h1
      have hck2 : containsKey PSEUDO_EOF m = true := by
        rw [containsKey_cons] at hck
        rwa [if_neg (fun hh => hk hh.symm)] at hck
      have ihm := ih (by
        simp only [wfHdr, Bool.and_eq_true, List.all_eq_true]
        exact ⟨⟨hsort.1, fun e he => hall e (by simp [he])⟩, hck2⟩)
      constructor
      · conv_lhs => rw [ihm.1]
        rw [List.filter_cons_of_pos (by simp [hk])]
        simp
      · intro e he
        rw [List.filter_cons_of_pos (by simp [hk])] at he
        rcases List.mem_cons.mp he with he | he
        · subst he; exact hbyte
        · exact ihm.2 e he

theorem readEntries_serialized :
    ∀ (l : List (Int × Int)) (m0 : List (Int × Int)) (rest : List Int),
      (∀ e ∈ l, 0 ≤ e.1 ∧ e.1 ≤ 255) →
      readEntries l.length ((l.map entryBytes).flatten ++ rest) m0 =
        some (List.foldl (fun m e => mapPut e.1 e.2 m) m0 l, rest) := by
  intro l
  induction l with
  | nil => intro m0 rest h; simp [readEntries]
  | cons e l ih =>
    intro m0 rest h
    rcases e with ⟨ch, f⟩
    have hb : 0 ≤ ch ∧ ch ≤ 255 := h (ch, f) (by simp)
    have hne : ¬ (ch = PSEUDO_EOF) := by simp [PSEUDO_EOF]; omega
    have hmod : ch % 256 = ch := Int.emod_eq_of_lt (by omega) (by omega)
    simp only [List.map_cons, List.flatten_cons, entryBytes, List.length_cons]
    rw [if_neg hne, hmod]
    simp only [readEntries, List.cons_append, List.append_assoc, List.nil_append, getByte]
    have hp : parseIntB (intBytes f ++ (32 :: ((l.map entryBytes).flatten ++ rest)))
        = some (f, 32 :: ((l.map entryBytes).flatten ++ rest)) := by
      apply parseIntB_intBytes
      intro y hy
      simp only [List.head?] at hy
      have hy32 : y = 32 := by injection hy with hy2; omega
      subst hy32
      simp [isDigitB]
    rw [hp]
    simp only [getByte]
    rw [ih (mapPut ch f m0) rest (fun x hx => h x (by simp [hx]))]
    simp

theorem readFileHeader_roundtrip (m : List (Int × Int)) (hwf : wfHdr m = true)
    (rest : List Int) :
    readFileHeader
      ((intBytes ((m.length : Int) - 1) ++ [32] ++ (m.map entryBytes).flatten) ++ rest) =
      some (m, rest) := by
  rcases wfHdr_decomp m hwf with ⟨hdec, hfb⟩
  have hsort : sortedKeysB m = true := by
    simp only [wfHdr, Bool.and_eq_true] at hwf
    exact hwf.1.1
  set F := m.filter (fun e => decide (e.1 ≠ PSEUDO_EOF)) with hF
  have hlen : m.length = F.length + 1 := by rw [hdec]; simp
  have hn : ((m.length : Int) - 1) = (F.length : Int) := by rw [hlen]; push_cast; ring
  have hents : (m.map entryBytes).flatten = (F.map entryBytes).flatten := by
    conv_lhs => rw [hdec]
    simp [entryBytes]
  rw [hn, hents]
  have hp : parseIntB (intBytes (F.length : Int) ++
      (32 :: ((F.map entryBytes).flatten ++ rest))) =
      some ((F.length : Int), 32 :: ((F.map entryBytes).flatten ++ rest)) := by
    apply parseIntB_intBytes
    intro y hy
    simp only [List.head?] at hy
    have hy32 : y = 32 := by injection hy with hy2; omega
    subst hy32
    simp [isDigitB]
  simp only [readFileHeader, List.append_assoc, List.cons_append, List.singleton_append,
    List.nil_append]
  rw [hp]
  simp only [getByte]
  have htn : ((F.length : Int)).toNat = F.length := by omega
  rw [htn]
  rw [readEntries_serialized F [] rest hfb]
  have hins : List.foldl (fun m e => mapPut e.1 e.2 m) ([] : List (Int × Int)) F = F := by
    apply insertAll_sorted
    rw [List.nil_append]
    have hsl := sortedB_append_left F [(PSEUDO_EOF, 1)]
    rw [← hdec] at hsl
    exact hsl hsort
  rw [hins]
  have hfin : mapPut PSEUDO_EOF 1 F = F ++ [(PSEUDO_EOF, 1)] := by
    apply mapPut_append_big
    intro e he
    have := hfb e he
    simp only [PSEUDO_EOF]
    omega
  show some (mapPut PSEUDO_EOF 1 F, rest) = some (m, rest)
  rw [hfin, ← hdec]

theorem header_roundtrip (m : List (Int × Int)) (hwf : wfHdr m = true)
    (h : List Int) (hw : writeFileHeader [] m = Except.ok h) (rest : List Int) :
    readFileHeader (h ++ rest) = some (m, rest) := by
  have hck : containsKey PSEUDO_EOF m = true := by
    simp only [wfHdr, Bool.and_eq_true] at hwf
    exact hwf.2
  rw [writeFileHeader_ok m [] hck] at hw
  have hh : h = intBytes ((m.length : Int) - 1) ++ [32] ++ (m.map entryBytes).flatten := by
    injection hw with hw2
    rw [← hw2]
    simp
  rw [hh]
  exact readFileHeader_roundtrip m hwf rest


/-! ## Lemmas: the priority queue and `buildEncodingTree` -/

theorem pqDequeue_eq_none :
    ∀ (q : PQ), pqDequeue q = none ↔ q = [] := by
  intro q
  cases q with
  | nil => simp [pqDequeue]
  | cons e rest =>
    simp only [pqDequeue]
    cases h : pqDequeue rest with
    | none => simp
    | some m =>
      rcases m with ⟨m, rest2⟩
      by_cases hle : e.2 ≤ m.2 <;> simp [hle]

theorem pqDequeue_cons (e : NodeP × Int) (q : PQ) :
    pqDequeue (e :: q) =
      match pqDequeue q with
      | none => some (e, q)
      | some (m, rest2) => if e.2 ≤ m.2 then some (e, q) else some (m, e :: rest2) := rfl

theorem pqDequeue_perm :
    ∀ (q : PQ) (a : NodeP × Int) (rest : PQ),
      pqDequeue q = some (a, rest) → q.Perm (a :: rest) := by
  intro q
  induction q with
  | nil => intro a rest h; simp [pqDequeue] at h
  | cons e q ih =>
    intro a rest h
    rw [pqDequeue_cons] at h
    cases h2 : pqDequeue q with
    | none =>
      rw [h2] at h
      have hq : q = [] := (pqDequeue_eq_none q).mp h2
      subst hq
      have h' : some (e, ([] : PQ)) = some (a, rest) := h
      injection h' with h3
      injection h3 with h4 h5
      subst h4; subst h5
      exact List.Perm.refl _
    | some m2 =>
      rcases m2 with ⟨m, rest2⟩
      rw [h2] at h
      have ihm := ih m rest2 h2
      have h' : (if e.2 ≤ m.2 then some (e, q) else some (m, e :: rest2))
          = some (a, rest) := h
      by_cases hle : e.2 ≤ m.2
      · rw [if_pos hle] at h'
        injection h' with h3
        injection h3 with h4 h5
        subst h4; subst h5
        exact List.Perm.refl _
      · rw [if_neg hle] at h'
        injection h' with h3
        injection h3 with h4 h5
        subst h4; subst h5
        exact List.Perm.trans (List.Perm.cons e ihm) (List.Perm.swap _ e rest2)

theorem pqDequeue_length (q : PQ) (a : NodeP × Int) (rest : PQ)
    (h : pqDequeue q = some (a, rest)) : q.length = rest.length + 1 := by
  have := (pqDequeue_perm q a rest h).length_eq
  simpa using this

theorem pqDequeue_mem (q : PQ) (a : NodeP × Int) (rest : PQ)
    (h : pqDequeue q = some (a, rest)) (e : NodeP × Int) (he : e ∈ q) :
    e = a ∨ e ∈ rest := by
  have := (pqDequeue_perm q a rest h).mem_iff.mp he
  simpa using this

theorem pqDequeue_mem_self (q : PQ) (a : NodeP × Int) (rest : PQ)
    (h : pqDequeue q = some (a, rest)) : a ∈ q := by
  exact (pqDequeue_perm q a rest h).mem_iff.mpr (by simp)

theorem pqDequeue_mem_rest (q : PQ) (a : NodeP × Int) (rest : PQ)
    (h : pqDequeue q = some (a, rest)) (e : NodeP × Int) (he : e ∈ rest) : e ∈ q := by
  exact (pqDequeue_perm q a rest h).mem_iff.mpr (by simp [he])

theorem wfB_ne_null (t : NodeP) (h : wfB t = true) : t ≠ NodeP.null := by
  intro he
  subst he
  simp [wfB] at h

theorem wfB_node (w : Int) (a b : NodeP) (ha : wfB a = true) (hb : wfB b = true) :
    wfB (NodeP.mk NOT_A_CHAR w a b) = true := by
  cases a with
  | null => simp [wfB] at ha
  | mk c1 w1 z1 o1 =>
    cases b with
    | null => simp [wfB] at hb
    | mk c2 w2 z2 o2 =>
      simp [wfB, ha, hb]

theorem leafSyms_node (w : Int) (a b : NodeP) (ha : a ≠ NodeP.null) :
    leafSyms (NodeP.mk NOT_A_CHAR w a b) = leafSyms a ++ leafSyms b := by
  cases a with
  | null => exact absurd rfl ha
  | mk c1 w1 z1 o1 => rfl

theorem mergeNodesF_main :
    ∀ (f : Nat) (q : PQ), q.length ≤ f → q ≠ [] → (∀ e ∈ q, wfB e.1 = true) →
      ∃ t, mergeNodesF f q = some t ∧ wfB t = true ∧
        (∀ k, (∃ e ∈ q, k ∈ leafSyms e.1) → k ∈ leafSyms t) ∧
        (2 ≤ q.length → ∃ w z o, t = NodeP.mk NOT_A_CHAR w z o) := by
  intro f
  induction f with
  | zero =>
    intro q hlen hne hwf
    exact absurd (List.length_eq_zero.mp (by omega)) hne
  | succ f ih =>
    intro q hlen hne hwf
    by_cases h1 : q.length = 1
    · obtain ⟨e, hq⟩ : ∃ e, q = [e] := by
        cases q with
        | nil => simp at h1
        | cons e q2 =>
          cases q2 with
          | nil => exact ⟨e, rfl⟩
          | cons e2 q3 => simp at h1
      subst hq
      refine ⟨e.1, ?_, hwf e (by simp), ?_, by intro h2; simp at h2⟩
      · simp [mergeNodesF, pqDequeue]
      · intro k hk
        rcases hk with ⟨e2, he2, hk⟩
        rcases List.mem_singleton.mp he2 with rfl
        exact hk
    · have h2 : 2 ≤ q.length := by
        have : q.length ≠ 0 := fun hh => hne (List.length_eq_zero.mp hh)
        omega
      obtain ⟨p1, hda⟩ : ∃ p, pqDequeue q = some p := by
        cases hd : pqDequeue q with
        | none => exact absurd ((pqDequeue_eq_none q).mp hd) hne
        | some p => exact ⟨p, rfl⟩
      obtain ⟨a, q1⟩ := p1
      have hq1len : q.length = q1.length + 1 := pqDequeue_length q a q1 hda
      have hq1ne : q1 ≠ [] := by
        intro hh
        rw [hh] at hq1len
        simp at hq1len
        omega
      obtain ⟨p2, hdb⟩ : ∃ p, pqDequeue q1 = some p := by
        cases hd : pqDequeue q1 with
        | none => exact absurd ((pqDequeue_eq_none q1).mp hd) hq1ne
        | some p => exact ⟨p, rfl⟩
      obtain ⟨b, q2⟩ := p2
      have hq2len : q1.length = q2.length + 1 := pqDequeue_length q1 b q2 hdb
      have hwa : wfB a.1 = true := hwf a (pqDequeue_mem_self q a q1 hda)
      have hwb : wfB b.1 = true :=
        hwf b (pqDequeue_mem_rest q a q1 hda b (pqDequeue_mem_self q1 b q2 hdb))
      set node := NodeP.mk NOT_A_CHAR (weightN a.1 + weightN b.1) a.1 b.1 with hnode
      set q3 := pqEnqueue node (weightN a.1 + weightN b.1) q2 with hq3
      have hq3len : q3.length = q2.length + 1 := by simp [hq3, pqEnqueue]
      have hq3ne : q3 ≠ [] := by
        intro hh
        rw [hh] at hq3len
        simp at hq3len
      have hwnode : wfB node = true := wfB_node _ _ _ hwa hwb
      have hq3wf : ∀ e ∈ q3, wfB e.1 = true := by
        intro e he
        rcases List.mem_append.mp he with he | he
        · exact hwf e
            (pqDequeue_mem_rest q a q1 hda e (pqDequeue_mem_rest q1 b q2 hdb e he))
        · rcases List.mem_singleton.mp he with rfl
          exact hwnode
      have hstep : mergeNodesF (Nat.succ f) q = mergeNodesF f q3 := by
        simp only [mergeNodesF, if_neg h1, hda, hdb]
      obtain ⟨t, hmt, hwt, hcov, hint⟩ := ih q3 (by omega) hq3ne hq3wf
      refine ⟨t, by rw [hstep]; exact hmt, hwt, ?_, ?_⟩
      · intro k hk
        apply hcov k
        rcases hk with ⟨e, he, hke⟩
        rcases pqDequeue_mem q a q1 hda e he with he0 | he1
        · refine ⟨(node, weightN a.1 + weightN b.1), by simp [hq3, pqEnqueue], ?_⟩
          rw [hnode, leafSyms_node _ _ _ (wfB_ne_null _ hwa), List.mem_append]
          exact Or.inl (he0 ▸ hke)
        · rcases pqDequeue_mem q1 b q2 hdb e he1 with he0 | he2
          · refine ⟨(node, weightN a.1 + weightN b.1), by simp [hq3, pqEnqueue], ?_⟩
            rw [hnode, leafSyms_node _ _ _ (wfB_ne_null _ hwa), List.mem_append]
            exact Or.inr (he0 ▸ hke)
          · exact ⟨e, by simp [hq3, pqEnqueue, he2], hke⟩
      · intro _
        by_cases hq3one : q3.length = 1
        · have hq2nil : q2 = [] := by
            rw [hq3len] at hq3one
            exact List.length_eq_zero.mp (by omega)
          have hq3eq : q3 = [(node, weightN a.1 + weightN b.1)] := by
            rw [hq3, hq2nil]
            rfl
          have hf1 : 1 ≤ f := by omega
          obtain ⟨f2, rfl⟩ : ∃ f2, f = Nat.succ f2 := by
            cases f with
            | zero => omega
            | succ f2 => exact ⟨f2, rfl⟩
          rw [hq3eq] at hmt
          simp only [mergeNodesF, List.length_singleton, if_pos rfl, pqDequeue] at hmt
          injection hmt with hmt2
          exact ⟨weightN a.1 + weightN b.1, a.1, b.1, by rw [← hmt2, hnode]⟩
        · exact hint (by omega)

theorem enqueueNodes_closed :
    ∀ (l : List (Int × Int)) (q : PQ),
      enqueueNodes l q =
        q ++ l.map (fun e => (NodeP.mk e.1 e.2 NodeP.null NodeP.null, e.2)) := by
  intro l
  induction l with
  | nil => intro q; simp [enqueueNodes]
  | cons e l ih =>
    intro q
    rcases e with ⟨c, w⟩
    rw [enqueueNodes, ih]
    simp [pqEnqueue]

theorem buildEncodingTree_main (m : List (Int × Int)) (hne : m ≠ [])
    (hkeys : ∀ e ∈ m, e.1 ≠ NOT_A_CHAR) :
    ∃ t, buildEncodingTree m = some t ∧ wfB t = true ∧
      (∀ e ∈ m, e.1 ∈ leafSyms t) ∧
      (2 ≤ m.length → ∃ w z o, t = NodeP.mk NOT_A_CHAR w z o) := by
  have hq : enqueueNodes m [] =
      m.map (fun e => (NodeP.mk e.1 e.2 NodeP.null NodeP.null, e.2)) := by
    rw [enqueueNodes_closed]
    simp
  have hlen : (enqueueNodes m []).length = m.length := by rw [hq]; simp
  have hqne : enqueueNodes m [] ≠ [] := by
    rw [hq]
    simp [hne]
  have hqwf : ∀ e ∈ enqueueNodes m [], wfB e.1 = true := by
    intro e he
    rw [hq] at he
    rcases List.mem_map.mp he with ⟨x, hx, rfl⟩
    simp only [wfB, decide_eq_true_eq]
    exact hkeys x hx
  obtain ⟨t, hmt, hwt, hcov, hint⟩ :=
    mergeNodesF_main (enqueueNodes m []).length (enqueueNodes m []) (by omega) hqne hqwf
  refine ⟨t, hmt, hwt, ?_, by rw [hlen] at hint; exact hint⟩
  intro e he
  apply hcov e.1
  refine ⟨(NodeP.mk e.1 e.2 NodeP.null NodeP.null, e.2), ?_, ?_⟩
  · rw [hq]
    exact List.mem_map.mpr ⟨e, he, rfl⟩
  · simp [leafSyms]

/-! ## Lemmas: tree walks -/

theorem walkChars_nil (t : NodeP) : walkChars t [] = some t := by cases t <;> rfl

theorem walkChars_cons_mk (ch w : Int) (z o : NodeP) (c : Int) (rest : List Int) :
    walkChars (NodeP.mk ch w z o) (c :: rest) = walkChars (if c = 48 then z else o) rest := rfl

theorem walkChars_cons_null (c : Int) (rest : List Int) :
    walkChars NodeP.null (c :: rest) = none := rfl

theorem walkChars_append :
    ∀ (p q : List Int) (t : NodeP),
      walkChars t (p ++ q) = (walkChars t p).bind (fun nd => walkChars nd q) := by
  intro p
  induction p with
  | nil => intro q t; simp [walkChars_nil]
  | cons c p ih =>
    intro q t
    cases t with
    | null => simp [walkChars_cons_null]
    | mk ch w z o =>
      rw [List.cons_append, walkChars_cons_mk, walkChars_cons_mk, ih]

theorem walkChars_null_ne_mk :
    ∀ (p : List Int) (ch w : Int) (z o : NodeP),
      walkChars NodeP.null p ≠ some (NodeP.mk ch w z o) := by
  intro p ch w z o
  cases p with
  | nil => simp [walkChars_nil]
  | cons c rest => simp [walkChars_cons_null]

theorem wfB_shape (ch w : Int) (z o : NodeP) (h : wfB (NodeP.mk ch w z o) = true) :
    (z = NodeP.null ∧ o = NodeP.null ∧ ch ≠ NOT_A_CHAR) ∨
      (ch = NOT_A_CHAR ∧ z ≠ NodeP.null ∧ o ≠ NodeP.null ∧ wfB z = true ∧ wfB o = true) := by
  cases z with
  | null =>
    cases o with
    | null =>
      simp only [wfB, decide_eq_true_eq] at h
      exact Or.inl ⟨rfl, rfl, h⟩
    | mk c2 w2 z2 o2 =>
      simp only [wfB, Bool.and_eq_true, decide_eq_true_eq] at h
      exact absurd h.1.2 (by simp [wfB])
  | mk c1 w1 z1 o1 =>
    cases o with
    | null =>
      simp only [wfB, Bool.and_eq_true, decide_eq_true_eq] at h
      exact absurd h.2 (by simp [wfB])
    | mk c2 w2 z2 o2 =>
      simp only [wfB, Bool.and_eq_true, decide_eq_true_eq] at h
      exact Or.inr ⟨h.1.1, by simp, by simp, h.1.2, h.2⟩

theorem wf_walk_mk :
    ∀ (p : List Int) (t : NodeP), wfB t = true →
      ∀ (ch w : Int) (z o : NodeP), walkChars t p = some (NodeP.mk ch w z o) →
        wfB (NodeP.mk ch w z o) = true := by
  intro p
  induction p with
  | nil =>
    intro t hwf ch w z o hw
    rw [walkChars_nil] at hw
    injection hw with hw2
    rw [← hw2]
    exact hwf
  | cons c p ih =>
    intro t hwf ch w z o hw
    cases t with
    | null => rw [walkChars_cons_null] at hw; exact absurd hw (by simp)
    | mk ch1 w1 z1 o1 =>
      rw [walkChars_cons_mk] at hw
      rcases wfB_shape ch1 w1 z1 o1 hwf with ⟨hz, ho, _⟩ | ⟨_, _, _, hwz, hwo⟩
      · subst hz; subst ho
        have : (if c = 48 then NodeP.null else NodeP.null) = NodeP.null := by
          by_cases hc : c = 48 <;> simp [hc]
        rw [this] at hw
        exact absurd hw (walkChars_null_ne_mk p ch w z o)
      · by_cases hc : c = 48
        · rw [if_pos hc] at hw
          exact ih z1 hwz ch w z o hw
        · rw [if_neg hc] at hw
          exact ih o1 hwo ch w z o hw

theorem isCorrectCode_of_walk (t : NodeP) (code : List Int) (c ch w : Int) (z o : NodeP)
    (h : walkChars t code = some (NodeP.mk ch w z o)) :
    isCorrectCode t code c = some (decide (ch = c)) := by
  simp [isCorrectCode, h]

theorem searchCodeInTree_of_walk (t : NodeP) (code : List Int) (ch w : Int) (z o : NodeP)
    (h : walkChars t code = some (NodeP.mk ch w z o)) :
    searchCodeInTree t code = some ch := by
  simp [searchCodeInTree, h]

theorem searchCodeInTree_of_walk_null (t : NodeP) (code : List Int)
    (h : walkChars t code = some NodeP.null) :
    searchCodeInTree t code = none := by
  simp [searchCodeInTree, h]

theorem searchCodeInTree_of_walk_none (t : NodeP) (code : List Int)
    (h : walkChars t code = none) :
    searchCodeInTree t code = none := by
  simp [searchCodeInTree, h]

/-! ## Lemmas: `searchCharacterInTree` finds correct codes -/

theorem leafSyms_leaf (ch w : Int) :
    leafSyms (NodeP.mk ch w NodeP.null NodeP.null) = [ch] := rfl

theorem searchCharacterInTree_mk (ch w : Int) (z o : NodeP) (c : Int) :
    searchCharacterInTree (NodeP.mk ch w z o) c =
      if ch ≠ NOT_A_CHAR then some []
      else
        match searchCharacterInTree z c with
        | none => none
        | some s0 =>
          match isCorrectCode (NodeP.mk ch w z o) (48 :: s0) c with
          | none => none
          | some true => some (48 :: s0)
          | some false =>
            match searchCharacterInTree o c with
            | none => none
            | some s1 =>
              match isCorrectCode (NodeP.mk ch w z o) (49 :: s1) c with
              | none => none
              | some true => some (49 :: s1)
              | some false => some [] := rfl

theorem child_char_ne (t : NodeP) (c : Int) (hwf : wfB t = true) (hc : c ≠ NOT_A_CHAR)
    (hno : c ∉ leafSyms t) :
    ∀ (ch w : Int) (z o : NodeP), t = NodeP.mk ch w z o → ch ≠ c := by
  intro ch w z o ht
  subst ht
  rcases wfB_shape ch w z o hwf with ⟨hz, ho, hch⟩ | ⟨hch, hz, ho, _, _⟩
  · subst hz; subst ho
    rw [leafSyms_leaf] at hno
    simp at hno
    omega
  · rw [hch]
    omega

theorem searchCharacterInTree_total :
    ∀ (t : NodeP), wfB t = true → ∀ (c : Int), c ≠ NOT_A_CHAR →
      ∃ p, searchCharacterInTree t c = some p ∧
        (∀ x ∈ p, x = 48 ∨ x = 49) ∧
        (c ∈ leafSyms t → ∃ w2, walkChars t p = some (NodeP.mk c w2 NodeP.null NodeP.null)) ∧
        (c ∉ leafSyms t → p = []) := by
  intro t
  induction t with
  | null => intro h; simp [wfB] at h
  | mk ch w z o ihz iho =>
    intro hwf c hc
    rcases wfB_shape ch w z o hwf with ⟨hz, ho, hch⟩ | ⟨hch, hzne, hone, hwz, hwo⟩
    · subst hz; subst ho
      refine ⟨[], ?_, by simp, ?_, fun _ => rfl⟩
      · rw [searchCharacterInTree_mk, if_pos hch]
      · intro hmem
        rw [leafSyms_leaf] at hmem
        rcases List.mem_singleton.mp hmem with rfl
        exact ⟨w, by rw [walkChars_nil]⟩
    · subst hch
      have hsyms : leafSyms (NodeP.mk NOT_A_CHAR w z o) = leafSyms z ++ leafSyms o :=
        leafSyms_node w z o hzne
      obtain ⟨p0, hs0, hc0, hin0, hout0⟩ := ihz hwz c hc
      obtain ⟨p1, hs1, hc1, hin1, hout1⟩ := iho hwo c hc
      have hw48 : walkChars (NodeP.mk NOT_A_CHAR w z o) (48 :: p0) = walkChars z p0 := by
        rw [walkChars_cons_mk, if_pos rfl]
      by_cases hmz : c ∈ leafSyms z
      · obtain ⟨w0, hwalk0⟩ := hin0 hmz
        have hcc : isCorrectCode (NodeP.mk NOT_A_CHAR w z o) (48 :: p0) c = some true := by
          rw [isCorrectCode_of_walk _ _ c c w0 NodeP.null NodeP.null (by rw [hw48]; exact hwalk0)]
          simp
        refine ⟨48 :: p0, ?_, ?_, ?_, ?_⟩
        · simp [searchCharacterInTree_mk, hs0, hcc]
        · intro x hx
          rcases List.mem_cons.mp hx with rfl | hx
          · exact Or.inl rfl
          · exact hc0 x hx
        · intro _
          exact ⟨w0, by rw [hw48]; exact hwalk0⟩
        · intro hno
          exact absurd (by rw [hsyms]; exact List.mem_append.mpr (Or.inl hmz)) hno
      · have hp0nil : p0 = [] := hout0 hmz
        subst hp0nil
        have hwz48 : walkChars (NodeP.mk NOT_A_CHAR w z o) [48] = some z := by
          rw [walkChars_cons_mk, if_pos rfl, walkChars_nil]
        obtain ⟨chz, wz2, zz, oz, hzeq⟩ : ∃ c2 w2 z2 o2, z = NodeP.mk c2 w2 z2 o2 := by
          cases z with
          | null => exact absurd rfl hzne
          | mk c2 w2 z2 o2 => exact ⟨c2, w2, z2, o2, rfl⟩
        have hchz : chz ≠ c := child_char_ne z c hwz hc hmz chz wz2 zz oz hzeq
        have hcc0 : isCorrectCode (NodeP.mk NOT_A_CHAR w z o) [48] c = some false := by
          rw [isCorrectCode_of_walk _ _ c chz wz2 zz oz (by rw [hwz48, hzeq])]
          simp [hchz]
        have hw49 : walkChars (NodeP.mk NOT_A_CHAR w z o) (49 :: p1) = walkChars o p1 := by
          rw [walkChars_cons_mk, if_neg (by omega)]
        by_cases hmo : c ∈ leafSyms o
        · obtain ⟨w1, hwalk1⟩ := hin1 hmo
          have hcc1 : isCorrectCode (NodeP.mk NOT_A_CHAR w z o) (49 :: p1) c = some true := by
            rw [isCorrectCode_of_walk _ _ c c w1 NodeP.null NodeP.null
              (by rw [hw49]; exact hwalk1)]
            simp
          refine ⟨49 :: p1, ?_, ?_, ?_, ?_⟩
          · simp [searchCharacterInTree_mk, hs0, hcc0, hs1, hcc1]
          · intro x hx
            rcases List.mem_cons.mp hx with rfl | hx
            · exact Or.inr rfl
            · exact hc1 x hx
          · intro _
            exact ⟨w1, by rw [hw49]; exact hwalk1⟩
          · intro hno
            exact absurd (by rw [hsyms]; exact List.mem_append.mpr (Or.inr hmo)) hno
        · have hp1nil : p1 = [] := hout1 hmo
          subst hp1nil
          have hwo49 : walkChars (NodeP.mk NOT_A_CHAR w z o) [49] = some o := by
            rw [walkChars_cons_mk, if_neg (by omega), walkChars_nil]
          obtain ⟨cho, wo2, zo, oo, hoeq⟩ : ∃ c2 w2 z2 o2, o = NodeP.mk c2 w2 z2 o2 := by
            cases o with
            | null => exact absurd rfl hone
            | mk c2 w2 z2 o2 => exact ⟨c2, w2, z2, o2, rfl⟩
          have hcho : cho ≠ c := child_char_ne o c hwo hc hmo cho wo2 zo oo hoeq
          have hcc1 : isCorrectCode (NodeP.mk NOT_A_CHAR w z o) [49] c = some false := by
            rw [isCorrectCode_of_walk _ _ c cho wo2 zo oo (by rw [hwo49, hoeq])]
            simp [hcho]
          refine ⟨[], ?_, by simp, ?_, fun _ => rfl⟩
          · simp [searchCharacterInTree_mk, hs0, hcc0, hs1, hcc1]
          · intro hmem
            rw [hsyms] at hmem
            rcases List.mem_append.mp hmem with hmem | hmem
            · exact absurd hmem hmz
            · exact absurd hmem hmo

/-! ## Lemmas: bit packing -/

theorem bitsOfByteGo_zero : ∀ (k : Nat), bitsOfByteGo k 0 = List.replicate k 0 := by
  intro k
  induction k with
  | zero => rfl
  | succ k ih =>
    simp only [bitsOfByteGo]
    norm_num
    rw [ih]
    simp [List.replicate_succ]

theorem byteOfBits_cons (b : Int) (r : List Int) :
    byteOfBits (b :: r) = b + 2 * byteOfBits r := rfl

theorem bitsOfByteGo_byteOfBits :
    ∀ (c : List Int) (k : Nat), c.length ≤ k → (∀ b ∈ c, b = 0 ∨ b = 1) →
      bitsOfByteGo k (byteOfBits c) = c ++ List.replicate (k - c.length) 0 := by
  intro c
  induction c with
  | nil =>
    intro k _ _
    simp only [byteOfBits, List.nil_append, List.length_nil, Nat.sub_zero]
    exact bitsOfByteGo_zero k
  | cons b c ih =>
    intro k hlen hb
    obtain ⟨k2, rfl⟩ : ∃ k2, k = Nat.succ k2 := by
      cases k with
      | zero => simp at hlen
      | succ k2 => exact ⟨k2, rfl⟩
    have hb1 : b = 0 ∨ b = 1 := hb b (by simp)
    rw [byteOfBits_cons]
    simp only [bitsOfByteGo]
    have hmod : (b + 2 * byteOfBits c) % 2 = b := by omega
    have hdiv : (b + 2 * byteOfBits c) / 2 = byteOfBits c := by omega
    rw [hmod, hdiv, ih k2 (by simpa using hlen) (fun x hx => hb x (by simp [hx]))]
    simp

theorem packBitsF_nil : ∀ (f : Nat), packBitsF f [] = [] := by
  intro f
  cases f <;> rfl

theorem packBitsF_congr :
    ∀ (n f : Nat) (l : List Int), l.length ≤ n → l.length ≤ f →
      packBitsF f l = packBitsF l.length l := by
  intro n
  induction n with
  | zero =>
    intro f l hn _
    have : l = [] := List.length_eq_zero.mp (by omega)
    subst this
    rw [packBitsF_nil, packBitsF_nil]
  | succ n ih =>
    intro f l hn hf
    cases l with
    | nil => rw [packBitsF_nil, packBitsF_nil]
    | cons b l2 =>
      obtain ⟨f2, rfl⟩ : ∃ f2, f = Nat.succ f2 := by
        cases f with
        | zero => simp at hf
        | succ f2 => exact ⟨f2, rfl⟩
      simp only [List.length_cons] at hn hf
      simp only [packBitsF, List.length_cons]
      have hd8 : ((b :: l2).drop 8).length = l2.length + 1 - 8 := by
        simp [List.length_drop]
      have hda : ((b :: l2).drop 8).length ≤ n := by rw [hd8]; omega
      have hdb : ((b :: l2).drop 8).length ≤ f2 := by rw [hd8]; omega
      have hdc : ((b :: l2).drop 8).length ≤ l2.length := by rw [hd8]; omega
      rw [ih f2 ((b :: l2).drop 8) hda hdb, ih l2.length ((b :: l2).drop 8) hda hdc]

theorem packBits_cons (b : Int) (l : List Int) :
    packBits (b :: l) = byteOfBits ((b :: l).take 8) :: packBits ((b :: l).drop 8) := by
  simp only [packBits, List.length_cons, packBitsF]
  rw [packBitsF_congr (l.length) l.length ((b :: l).drop 8)
    (by simp only [List.length_drop, List.length_cons]; omega)
    (by simp only [List.length_drop, List.length_cons]; omega)]

theorem unpackBits_nil : unpackBits [] = [] := rfl

theorem unpackBits_cons (b : Int) (l : List Int) :
    unpackBits (b :: l) = bitsOfByte b ++ unpackBits l := by
  simp [unpackBits]

theorem unpackBits_length : ∀ (l : List Int), (unpackBits l).length = 8 * l.length := by
  intro l
  induction l with
  | nil => rfl
  | cons b l ih =>
    rw [unpackBits_cons]
    simp only [List.length_append, ih, List.length_cons]
    have : (bitsOfByte b).length = 8 := rfl
    rw [this]
    ring

theorem unpack_pack_aux :
    ∀ (n : Nat) (bits : List Int), bits.length ≤ n → (∀ b ∈ bits, b = 0 ∨ b = 1) →
      ∃ pad, unpackBits (packBits bits) = bits ++ pad ∧ ∀ b ∈ pad, b = 0 := by
  intro n
  induction n with
  | zero =>
    intro bits hlen _
    have : bits = [] := List.length_eq_zero.mp (by omega)
    subst this
    exact ⟨[], rfl, by simp⟩
  | succ n ih =>
    intro bits hlen hb
    cases bits with
    | nil => exact ⟨[], rfl, by simp⟩
    | cons b l =>
      rw [packBits_cons, unpackBits_cons]
      have htb : ∀ x ∈ (b :: l).take 8, x = 0 ∨ x = 1 :=
        fun x hx => hb x (List.take_subset 8 (b :: l) hx)
      have htl : ((b :: l).take 8).length ≤ 8 := by
        simp [List.length_take]
      rw [show bitsOfByte (byteOfBits ((b :: l).take 8)) =
          (b :: l).take 8 ++ List.replicate (8 - ((b :: l).take 8).length) 0 from
        bitsOfByteGo_byteOfBits ((b :: l).take 8) 8 htl htb]
      by_cases hsmall : (b :: l).length ≤ 8
      · have hdrop : (b :: l).drop 8 = [] := List.drop_eq_nil_of_le hsmall
        have htake : (b :: l).take 8 = b :: l := List.take_of_length_le hsmall
        rw [hdrop, htake]
        refine ⟨List.replicate (8 - (b :: l).length) 0, ?_, by simp⟩
        simp [unpackBits_nil, packBitsF_nil, packBits]
      · have htake8 : ((b :: l).take 8).length = 8 := by
          simp only [List.length_take]
          omega
        rw [htake8]
        simp only [Nat.sub_self, List.replicate_zero, List.append_nil]
        obtain ⟨pad, hpad, hpz⟩ := ih ((b :: l).drop 8)
          (by simp only [List.length_drop]; simp only [List.length_cons] at hlen ⊢; omega)
          (fun x hx => hb x (List.drop_subset 8 (b :: l) hx))
        refine ⟨pad, ?_, hpz⟩
        rw [hpad, ← List.append_assoc, List.take_append_drop]

/-! ## Lemmas: the decoder -/

theorem writeBits_nil : writeBits [] = [] := rfl

theorem writeBits_cons (c : Int) (p : List Int) :
    writeBits (c :: p) = (if c = 48 then 0 else 1) :: writeBits p := rfl

theorem writeBits_append (p q : List Int) :
    writeBits (p ++ q) = writeBits p ++ writeBits q := by
  simp [writeBits]

theorem intBytes_zero : intBytes 0 = [48] := by decide

theorem intBytes_one : intBytes 1 = [49] := by decide

theorem isLeafN_leaf (c w : Int) :
    isLeafN (NodeP.mk c w NodeP.null NodeP.null) = true := rfl

theorem isLeafN_of_zero_ne (c w : Int) (z o : NodeP) (hz : z ≠ NodeP.null) :
    isLeafN (NodeP.mk c w z o) = false := by
  cases z with
  | null => exact absurd rfl hz
  | mk a b cc d => cases o <;> rfl

theorem refDecode_nil (root cur : NodeP) (out : List Int) :
    refDecode root [] cur out = none := rfl

theorem refDecode_cons (root : NodeP) (b : Int) (rest : List Int) (ch1 w1 : Int)
    (z1 o1 : NodeP) (out : List Int) :
    refDecode root (b :: rest) (NodeP.mk ch1 w1 z1 o1) out =
      match (if b = 0 then z1 else o1) with
      | NodeP.null => none
      | NodeP.mk ch w2 z2 o2 =>
        if isLeafN (NodeP.mk ch w2 z2 o2) then
          if ch = PSEUDO_EOF then some (out, rest) else refDecode root rest root (out ++ [ch])
        else refDecode root rest (NodeP.mk ch w2 z2 o2) out := rfl

theorem refDecode_code (t : NodeP) :
    ∀ (p : List Int) (cur : NodeP) (rest out : List Int) (c w2 : Int),
      wfB cur = true → (∀ x ∈ p, x = 48 ∨ x = 49) → p ≠ [] →
      walkChars cur p = some (NodeP.mk c w2 NodeP.null NodeP.null) →
      refDecode t (writeBits p ++ rest) cur out =
        (if c = PSEUDO_EOF then some (out, rest) else refDecode t rest t (out ++ [c])) := by
  intro p
  induction p with
  | nil => intro cur rest out c w2 _ _ hne _; exact absurd rfl hne
  | cons x p ih =>
    intro cur rest out c w2 hwcur hchars _ hwalk
    obtain ⟨ch1, w1, z1, o1, rfl⟩ : ∃ a b zz oo, cur = NodeP.mk a b zz oo := by
      cases cur with
      | null => simp [wfB] at hwcur
      | mk a b zz oo => exact ⟨a, b, zz, oo, rfl⟩
    have hx : x = 48 ∨ x = 49 := hchars x (by simp)
    have hbit : (if x = 48 then (0 : Int) else 1) = 0 ↔ x = 48 := by
      rcases hx with rfl | rfl <;> simp
    have hchild : (if (if x = 48 then (0 : Int) else 1) = 0 then z1 else o1)
        = (if x = 48 then z1 else o1) := by
      rcases hx with rfl | rfl <;> simp
    rw [writeBits_cons, List.cons_append, refDecode_cons, hchild]
    rw [walkChars_cons_mk] at hwalk
    cases p with
    | nil =>
      rw [walkChars_nil] at hwalk
      injection hwalk with hw2
      rw [hw2, writeBits_nil, List.nil_append]
      simp [isLeafN_leaf]
    | cons y p2 =>
      have hwchild : wfB (if x = 48 then z1 else o1) = true := by
        rcases wfB_shape ch1 w1 z1 o1 hwcur with ⟨hz, ho, _⟩ | ⟨_, _, _, hwz, hwo⟩
        · exfalso
          subst hz; subst ho
          have : (if x = 48 then NodeP.null else NodeP.null) = NodeP.null := by
            by_cases hc : x = 48 <;> simp [hc]
          rw [this] at hwalk
          exact absurd hwalk (walkChars_null_ne_mk _ _ _ _ _)
        · by_cases hc : x = 48 <;> simp [hc, hwz, hwo]
      obtain ⟨c2, wc, zc, oc, hceq⟩ :
          ∃ a b zz oo, (if x = 48 then z1 else o1) = NodeP.mk a b zz oo := by
        cases hch : (if x = 48 then z1 else o1) with
        | null => rw [hch] at hwchild; simp [wfB] at hwchild
        | mk a b zz oo => exact ⟨a, b, zz, oo, rfl⟩
      rw [hceq]
      rw [hceq] at hwalk hwchild
      have hnotleaf : isLeafN (NodeP.mk c2 wc zc oc) = false := by
        rcases wfB_shape c2 wc zc oc hwchild with ⟨hz, ho, _⟩ | ⟨_, hzne, _, _, _⟩
        · exfalso
          subst hz; subst ho
          rw [walkChars_cons_mk] at hwalk
          have : (if y = 48 then NodeP.null else NodeP.null) = NodeP.null := by
            by_cases hc : y = 48 <;> simp [hc]
          rw [this] at hwalk
          exact absurd hwalk (walkChars_null_ne_mk _ _ _ _ _)
        · exact isLeafN_of_zero_ne c2 wc zc oc hzne
      simp only [hnotleaf, Bool.false_eq_true, if_false]
      exact ih (NodeP.mk c2 wc zc oc) rest out c w2 hwchild
        (fun a ha => hchars a (by simp [ha])) (by simp) hwalk

theorem decodeFileGo_succ (t : NodeP) (f : Nat) (bits code out : List Int) :
    decodeFileGo t (Nat.succ f) bits code out =
      match searchCodeInTree t (code ++ intBytes (readBitM bits).1) with
      | none => DecodeResult.crash out
      | some character =>
        if character = PSEUDO_EOF then DecodeResult.ok out (readBitM bits).2
        else if character ≠ NOT_A_CHAR then
          decodeFileGo t f (readBitM bits).2 [] (out ++ [character])
        else decodeFileGo t f (readBitM bits).2 (code ++ intBytes (readBitM bits).1) out := rfl

theorem decode_sim (t : NodeP) (hwf : wfB t = true) :
    ∀ (bits : List Int), (∀ b ∈ bits, b = 0 ∨ b = 1) →
      ∀ (fuel : Nat) (cur : NodeP) (code out res rrest : List Int),
        bits.length ≤ fuel →
        walkChars t code = some cur → cur ≠ NodeP.null →
        refDecode t bits cur out = some (res, rrest) →
        decodeFileGo t fuel bits code out = DecodeResult.ok res rrest := by
  intro bits
  induction bits with
  | nil =>
    intro _ fuel cur code out res rrest _ _ _ href
    rw [refDecode_nil] at href
    exact absurd href (by simp)
  | cons b rest ih =>
    intro hbits fuel cur code out res rrest hfuel hwalk hcur href
    obtain ⟨fl, rfl⟩ : ∃ fl, fuel = Nat.succ fl := by
      cases fuel with
      | zero => simp at hfuel
      | succ fl => exact ⟨fl, rfl⟩
    obtain ⟨ch1, w1, z1, o1, rfl⟩ : ∃ a bb zz oo, cur = NodeP.mk a bb zz oo := by
      cases cur with
      | null => exact absurd rfl hcur
      | mk a bb zz oo => exact ⟨a, bb, zz, oo, rfl⟩
    have hb : b = 0 ∨ b = 1 := hbits b (by simp)
    have hcb : intBytes b = [if b = 0 then 48 else 49] := by
      rcases hb with rfl | rfl
      · rw [intBytes_zero]; simp
      · rw [intBytes_one]; simp
    have hrb : readBitM (b :: rest) = (b, rest) := rfl
    have hchild : walkChars t (code ++ intBytes b)
        = walkChars (NodeP.mk ch1 w1 z1 o1) (intBytes b) := by
      rw [walkChars_append, hwalk]
      rfl
    have hchild2 : walkChars (NodeP.mk ch1 w1 z1 o1) (intBytes b)
        = some (if b = 0 then z1 else o1) := by
      rw [hcb, walkChars_cons_mk]
      rcases hb with rfl | rfl
      · simp [walkChars_nil]
      · norm_num
        exact walkChars_nil o1
    rw [refDecode_cons] at href
    cases hcc : (if b = 0 then z1 else o1) with
    | null =>
      rw [hcc] at href
      exact absurd href (by simp)
    | mk c2 w2 z2 o2 =>
      rw [hcc] at href
      have href' : (if isLeafN (NodeP.mk c2 w2 z2 o2) then
          if c2 = PSEUDO_EOF then some (out, rest)
          else refDecode t rest t (out ++ [c2])
        else refDecode t rest (NodeP.mk c2 w2 z2 o2) out) = some (res, rrest) := href
      have hwalk2 : walkChars t (code ++ intBytes b) = some (NodeP.mk c2 w2 z2 o2) := by
        rw [hchild, hchild2, hcc]
      have hwfc : wfB (NodeP.mk c2 w2 z2 o2) = true :=
        wf_walk_mk (code ++ intBytes b) t hwf c2 w2 z2 o2 hwalk2
      have hsearch : searchCodeInTree t (code ++ intBytes b) = some c2 :=
        searchCodeInTree_of_walk t _ c2 w2 z2 o2 hwalk2
      rw [decodeFileGo_succ, hrb]
      simp only [hsearch]
      rcases wfB_shape c2 w2 z2 o2 hwfc with ⟨hz2, ho2, hc2⟩ | ⟨hc2, hz2ne, _, _, _⟩
      · subst hz2; subst ho2
        rw [isLeafN_leaf, if_pos rfl] at href'
        by_cases hpe : c2 = PSEUDO_EOF
        · rw [if_pos hpe] at href'
          injection href' with hp2
          injection hp2 with hr1 hr2
          rw [if_pos hpe, hr1, hr2]
        · rw [if_neg hpe] at href'
          rw [if_neg hpe, if_pos hc2]
          exact ih (fun x hx => hbits x (by simp [hx])) fl t [] (out ++ [c2]) res rrest
            (by simp at hfuel ⊢; omega) (walkChars_nil t) (wfB_ne_null t hwf) href'
      · rw [isLeafN_of_zero_ne c2 w2 z2 o2 hz2ne] at href'
        simp only [Bool.false_eq_true, if_false] at href'
        have hc2ne : ¬ (c2 = PSEUDO_EOF) := by rw [hc2]; simp [PSEUDO_EOF, NOT_A_CHAR]
        rw [if_neg hc2ne, if_neg (by rw [hc2]; simp)]
        exact ih (fun x hx => hbits x (by simp [hx])) fl (NodeP.mk c2 w2 z2 o2)
          (code ++ intBytes b) out res rrest (by simp at hfuel ⊢; omega) hwalk2 (by simp) href'

/-! ## Lemmas: the encoder and the frequency table -/

theorem mapGetD_mem {α : Type} (k : Int) (d : α) :
    ∀ (m : List (Int × α)), containsKey k m = true → (k, mapGetD k d m) ∈ m := by
  intro m
  induction m with
  | nil => intro h; simp [containsKey] at h
  | cons hd m ih =>
    intro h
    rcases hd with ⟨k2, v2⟩
    by_cases hk : k = k2
    · subst hk
      simp [mapGetD]
    · rw [containsKey_cons, if_neg hk] at h
      simp only [mapGetD, if_neg hk]
      exact List.mem_cons_of_mem _ (ih h)

theorem encodeFileGo_nil (t : NodeP) (cache : List (Int × List Int)) :
    encodeFileGo t [] cache =
      match searchCharacterInTree t PSEUDO_EOF with
      | none => none
      | some code => some (writeBits code) := rfl

theorem encodeFileGo_cons (t : NodeP) (c : Int) (rest : List Int)
    (cache : List (Int × List Int)) :
    encodeFileGo t (c :: rest) cache =
      if containsKey c cache then
        match encodeFileGo t rest cache with
        | none => none
        | some bits => some (writeBits (mapGetD c [] cache) ++ bits)
      else
        match searchCharacterInTree t c with
        | none => none
        | some code =>
          match encodeFileGo t rest (mapPut c code cache) with
          | none => none
          | some bits => some (writeBits code ++ bits) := rfl

theorem encodeFileGo_closed (t : NodeP) :
    ∀ (input : List Int) (cache : List (Int × List Int)),
      (∀ c ∈ input, ∃ p, searchCharacterInTree t c = some p) →
      (∃ pe, searchCharacterInTree t PSEUDO_EOF = some pe) →
      (∀ e ∈ cache, searchCharacterInTree t e.1 = some e.2) →
      encodeFileGo t input cache =
        some ((input.map (fun c => writeBits ((searchCharacterInTree t c).getD []))).flatten
          ++ writeBits ((searchCharacterInTree t PSEUDO_EOF).getD [])) := by
  intro input
  induction input with
  | nil =>
    intro cache _ hpe _
    obtain ⟨pe, hpe⟩ := hpe
    rw [encodeFileGo_nil]
    simp [hpe]
  | cons c rest ih =>
    intro cache hin hpe hcache
    rw [encodeFileGo_cons]
    by_cases hhit : containsKey c cache = true
    · rw [if_pos hhit]
      have hmem := mapGetD_mem c [] cache hhit
      have hsc : searchCharacterInTree t c = some (mapGetD c [] cache) :=
        hcache (c, mapGetD c [] cache) hmem
      rw [ih cache (fun x hx => hin x (by simp [hx])) hpe hcache]
      simp [hsc]
    · rw [if_neg hhit]
      obtain ⟨p, hp⟩ := hin c (by simp)
      rw [hp]
      have hcache2 : ∀ e ∈ mapPut c p cache, searchCharacterInTree t e.1 = some e.2 := by
        intro e he
        rcases mem_mapPut c p cache e he with rfl | he2
        · exact hp
        · exact hcache e he2
      have hrec := ih (mapPut c p cache) (fun x hx => hin x (by simp [hx])) hpe hcache2
      simp [hrec, hp]

theorem writeBits_bits (p : List Int) : ∀ x ∈ writeBits p, x = 0 ∨ x = 1 := by
  intro x hx
  rcases List.mem_map.mp hx with ⟨c, _, rfl⟩
  by_cases hc : c = 48 <;> simp [hc]

theorem search_nonempty_of_root (t : NodeP) (w0 : Int) (z0 o0 : NodeP)
    (hroot : t = NodeP.mk NOT_A_CHAR w0 z0 o0) (c w2 : Int) (p : List Int)
    (hc : c ≠ NOT_A_CHAR)
    (hwalk : walkChars t p = some (NodeP.mk c w2 NodeP.null NodeP.null)) : p ≠ [] := by
  intro hp
  subst hp
  rw [walkChars_nil] at hwalk
  injection hwalk with hw2
  rw [hroot] at hw2
  injection hw2 with h1 h2 h3 h4
  exact hc h1.symm

theorem refDecode_all (t : NodeP) (hwf : wfB t = true) (w0 : Int) (z0 o0 : NodeP)
    (hroot : t = NodeP.mk NOT_A_CHAR w0 z0 o0)
    (hpeof : PSEUDO_EOF ∈ leafSyms t) :
    ∀ (xs : List Int) (out rest : List Int),
      (∀ c ∈ xs, c ≠ NOT_A_CHAR ∧ c ≠ PSEUDO_EOF ∧ c ∈ leafSyms t) →
      refDecode t
        ((xs.map (fun c => writeBits ((searchCharacterInTree t c).getD []))).flatten
          ++ (writeBits ((searchCharacterInTree t PSEUDO_EOF).getD []) ++ rest)) t out
        = some (out ++ xs, rest) := by
  have heofne : PSEUDO_EOF ≠ NOT_A_CHAR := by simp [PSEUDO_EOF, NOT_A_CHAR]
  obtain ⟨pe, hpe, hpec, hpein, _⟩ := searchCharacterInTree_total t hwf PSEUDO_EOF heofne
  obtain ⟨we, hwalke⟩ := hpein hpeof
  have hpene : pe ≠ [] := search_nonempty_of_root t w0 z0 o0 hroot PSEUDO_EOF we pe heofne hwalke
  intro xs
  induction xs with
  | nil =>
    intro out rest _
    simp only [List.map_nil, List.flatten_nil, List.nil_append, hpe, Option.getD_some]
    rw [refDecode_code t pe t rest out PSEUDO_EOF we hwf hpec hpene hwalke]
    simp
  | cons c xs ih =>
    intro out rest hxs
    obtain ⟨hc257, hc256, hcin⟩ := hxs c (by simp)
    obtain ⟨pc, hpc, hpcc, hpcin, _⟩ := searchCharacterInTree_total t hwf c hc257
    obtain ⟨wc, hwalkc⟩ := hpcin hcin
    have hpcne : pc ≠ [] := search_nonempty_of_root t w0 z0 o0 hroot c wc pc hc257 hwalkc
    simp only [List.map_cons, List.flatten_cons, hpc, Option.getD_some, List.append_assoc]
    rw [refDecode_code t pc t
      ((xs.map (fun c => writeBits ((searchCharacterInTree t c).getD []))).flatten
        ++ (writeBits ((searchCharacterInTree t PSEUDO_EOF).getD []) ++ rest))
      out c wc hwf hpcc hpcne hwalkc]
    rw [if_neg hc256]
    rw [ih (out ++ [c]) rest (fun x hx => hxs x (by simp [hx]))]
    simp

theorem countLoop_sorted :
    ∀ (s : List Int) (m : List (Int × Int)), sortedKeysB m = true →
      sortedKeysB (countLoop s m) = true := by
  intro s
  induction s with
  | nil => intro m h; exact h
  | cons c s ih =>
    intro m h
    simp only [countLoop]
    by_cases hc : containsKey c m = true
    · rw [if_pos hc]
      exact ih _ (sortedB_mapPut _ _ _ h)
    · rw [if_neg hc]
      exact ih _ (sortedB_mapPut _ _ _ h)

theorem countLoop_keys :
    ∀ (s : List Int) (m : List (Int × Int)),
      (∀ e ∈ m, 0 ≤ e.1 ∧ e.1 ≤ 255) → (∀ c ∈ s, 0 ≤ c ∧ c ≤ 255) →
      ∀ e ∈ countLoop s m, 0 ≤ e.1 ∧ e.1 ≤ 255 := by
  intro s
  induction s with
  | nil => intro m hm _ e he; exact hm e he
  | cons c s ih =>
    intro m hm hs e he
    have hc : 0 ≤ c ∧ c ≤ 255 := hs c (by simp)
    have hput : ∀ (v : Int) (e2 : Int × Int), e2 ∈ mapPut c v m → 0 ≤ e2.1 ∧ e2.1 ≤ 255 := by
      intro v e2 he2
      rcases mem_mapPut c v m e2 he2 with rfl | he3
      · exact hc
      · exact hm e2 he3
    simp only [countLoop] at he
    by_cases hck : containsKey c m = true
    · rw [if_pos hck] at he
      exact ih _ (hput _) (fun x hx => hs x (by simp [hx])) e he
    · rw [if_neg hck] at he
      exact ih _ (hput _) (fun x hx => hs x (by simp [hx])) e he

theorem countLoop_contains_mono :
    ∀ (s : List Int) (m : List (Int × Int)) (c : Int),
      containsKey c m = true → containsKey c (countLoop s m) = true := by
  intro s
  induction s with
  | nil => intro m c h; exact h
  | cons x s ih =>
    intro m c h
    simp only [countLoop]
    by_cases hck : containsKey x m = true
    · rw [if_pos hck]
      exact ih _ _ (containsKey_mapPut_mono _ _ _ _ h)
    · rw [if_neg hck]
      exact ih _ _ (containsKey_mapPut_mono _ _ _ _ h)

theorem countLoop_contains :
    ∀ (s : List Int) (m : List (Int × Int)) (c : Int), c ∈ s →
      containsKey c (countLoop s m) = true := by
  intro s
  induction s with
  | nil => intro m c h; simp at h
  | cons x s ih =>
    intro m c h
    rcases List.mem_cons.mp h with rfl | h2
    · simp only [countLoop]
      by_cases hck : containsKey c m = true
      · rw [if_pos hck]
        exact countLoop_contains_mono s _ c (containsKey_mapPut_self _ _ _)
      · rw [if_neg hck]
        exact countLoop_contains_mono s _ c (containsKey_mapPut_self _ _ _)
    · simp only [countLoop]
      by_cases hck : containsKey x m = true
      · rw [if_pos hck]; exact ih _ c h2
      · rw [if_neg hck]; exact ih _ c h2

theorem getFrequencyTable_decomp (s : List Int) (hb : ∀ c ∈ s, 0 ≤ c ∧ c ≤ 255) :
    getFrequencyTable s = countLoop s [] ++ [(PSEUDO_EOF, 1)] := by
  apply mapPut_append_big
  intro e he
  have := countLoop_keys s [] (by simp) hb e he
  simp only [PSEUDO_EOF]
  omega

/-! ## The round trip for non-empty inputs -/

theorem compress_decompress (s : List Int) (hne : s ≠ [])
    (hb : ∀ c ∈ s, 0 ≤ c ∧ c ≤ 255) :
    ∃ f, compress s = some f ∧
      ∀ fuel, 8 * f.length ≤ fuel → decompress fuel f = RunResult.ok s := by
  set M := getFrequencyTable s with hM
  have hdecomp : M = countLoop s [] ++ [(PSEUDO_EOF, 1)] := getFrequencyTable_decomp s hb
  have hclkeys : ∀ e ∈ countLoop s [], 0 ≤ e.1 ∧ e.1 ≤ 255 :=
    countLoop_keys s [] (by simp) hb
  have hsorted : sortedKeysB M = true := by
    rw [hM, getFrequencyTable]
    exact sortedB_mapPut _ _ _ (countLoop_sorted s [] rfl)
  have hck : containsKey PSEUDO_EOF M = true := by
    rw [hM, getFrequencyTable]
    exact containsKey_mapPut_self _ _ _
  have hwfhdr : wfHdr M = true := by
    simp only [wfHdr, Bool.and_eq_true, List.all_eq_true]
    refine ⟨⟨hsorted, ?_⟩, hck⟩
    intro e he
    rw [hdecomp] at he
    rcases List.mem_append.mp he with he | he
    · have hk := hclkeys e he
      simp only [Bool.or_eq_true, Bool.and_eq_true, decide_eq_true_eq]
      exact Or.inr hk
    · rcases List.mem_singleton.mp he with rfl
      simp
  obtain ⟨H, hw⟩ : ∃ H, writeFileHeader [] M = Except.ok H :=
    ⟨_, writeFileHeader_ok M [] hck⟩
  have hMne : M ≠ [] := by rw [hdecomp]; simp
  have hKeys257 : ∀ e ∈ M, e.1 ≠ NOT_A_CHAR := by
    intro e he
    rw [hdecomp] at he
    rcases List.mem_append.mp he with he | he
    · have hk := hclkeys e he
      simp only [NOT_A_CHAR]
      omega
    · rcases List.mem_singleton.mp he with rfl
      simp [PSEUDO_EOF, NOT_A_CHAR]
  obtain ⟨t, hbt, hwt, hcov, hint⟩ := buildEncodingTree_main M hMne hKeys257
  have hclne : countLoop s [] ≠ [] := by
    intro hnil
    obtain ⟨c0, hc0⟩ : ∃ c0, c0 ∈ s := by
      cases s with
      | nil => exact absurd rfl hne
      | cons a l => exact ⟨a, by simp⟩
    have hcc := countLoop_contains s [] c0 hc0
    rw [hnil] at hcc
    simp [containsKey] at hcc
  have hMlen : 2 ≤ M.length := by
    rw [hdecomp]
    have hp := List.length_pos.mpr hclne
    simp only [List.length_append, List.length_singleton]
    omega
  obtain ⟨w0, z0, o0, hroot⟩ := hint hMlen
  have hmemM : ∀ c ∈ s, c ∈ leafSyms t := by
    intro c hc
    have hcont : containsKey c M = true := by
      rw [hM, getFrequencyTable]
      exact containsKey_mapPut_mono _ _ _ _ (countLoop_contains s [] c hc)
    obtain ⟨v, hv⟩ := (containsKey_iff_mem c M).mp hcont
    exact hcov (c, v) hv
  have heofmem : PSEUDO_EOF ∈ leafSyms t := by
    apply hcov (PSEUDO_EOF, 1)
    rw [hdecomp]
    simp
  have hsearchall : ∀ c ∈ s, ∃ p, searchCharacterInTree t c = some p := by
    intro c hc
    have hcb := hb c hc
    obtain ⟨p, hp, _, _, _⟩ := searchCharacterInTree_total t hwt c
      (by simp only [NOT_A_CHAR]; omega)
    exact ⟨p, hp⟩
  have hsearcheof : ∃ pe, searchCharacterInTree t PSEUDO_EOF = some pe := by
    obtain ⟨p, hp, _, _, _⟩ := searchCharacterInTree_total t hwt PSEUDO_EOF
      (by simp [PSEUDO_EOF, NOT_A_CHAR])
    exact ⟨p, hp⟩
  set B := (s.map (fun c => writeBits ((searchCharacterInTree t c).getD []))).flatten
      ++ writeBits ((searchCharacterInTree t PSEUDO_EOF).getD []) with hB
  have henc : encodeFile t s = some B := by
    rw [encodeFile]
    exact encodeFileGo_closed t s [] hsearchall hsearcheof (by simp)
  have hcomp : compress s = some (H ++ packBits B) := by
    simp only [compress, ← hM, hw, hbt, henc]
  have hBbits : ∀ x ∈ B, x = 0 ∨ x = 1 := by
    intro x hx
    rw [hB] at hx
    rcases List.mem_append.mp hx with hx | hx
    · rcases List.mem_flatten.mp hx with ⟨l, hl, hxl⟩
      rcases List.mem_map.mp hl with ⟨c, _, rfl⟩
      exact writeBits_bits _ x hxl
    · exact writeBits_bits _ x hx
  obtain ⟨pad, hpad, hpz⟩ := unpack_pack_aux B.length B (by omega) hBbits
  have hpadbits : ∀ x ∈ B ++ pad, x = 0 ∨ x = 1 := by
    intro x hx
    rcases List.mem_append.mp hx with hx | hx
    · exact hBbits x hx
    · exact Or.inl (hpz x hx)
  have hxs : ∀ c ∈ s, c ≠ NOT_A_CHAR ∧ c ≠ PSEUDO_EOF ∧ c ∈ leafSyms t := by
    intro c hc
    have hcb := hb c hc
    refine ⟨by simp only [NOT_A_CHAR]; omega, by simp only [PSEUDO_EOF]; omega, hmemM c hc⟩
  have href : refDecode t (B ++ pad) t [] = some ([] ++ s, pad) := by
    rw [hB, List.append_assoc]
    exact refDecode_all t hwt w0 z0 o0 hroot heofmem s [] pad hxs
  rw [List.nil_append] at href
  refine ⟨H ++ packBits B, hcomp, ?_⟩
  intro fuel hfuel
  have hlen1 : (B ++ pad).length = 8 * (packBits B).length := by
    rw [← hpad]
    exact unpackBits_length _
  have hlen2 : (B ++ pad).length ≤ fuel := by
    rw [hlen1]
    have hsub : (packBits B).length ≤ (H ++ packBits B).length := by simp
    omega
  have hdec : decodeFileGo t fuel (B ++ pad) [] [] = DecodeResult.ok s pad :=
    decode_sim t hwt (B ++ pad) hpadbits fuel t [] [] s pad hlen2 (walkChars_nil t)
      (wfB_ne_null t hwt) href
  have hread : readFileHeader (H ++ packBits B) = some (M, packBits B) :=
    header_roundtrip M hwfhdr H hw (packBits B)
  simp only [decompress, hread, hbt, decodeFile, hpad, hdec]

/-! ## Remaining helper lemmas for the claims -/

theorem sorted_contains_len (k : Int) :
    ∀ (m : List (Int × Int)), sortedKeysB m = true → containsKey k m = true →
      m.length = (m.filter (fun e => decide (e.1 ≠ k))).length + 1 := by
  intro m
  induction m with
  | nil => intro _ h; simp [containsKey] at h
  | cons hd m ih =>
    intro hs hc
    rcases hd with ⟨k2, v2⟩
    rw [sortedB_cons_iff] at hs
    by_cases hk : k = k2
    · subst hk
      rw [List.filter_cons_of_neg (by simp)]
      have hall : m.filter (fun e => decide (e.1 ≠ k)) = m := by
        apply List.filter_eq_self.mpr
        intro e he
        have := hs.2 e he
        simp only [decide_eq_true_eq]
        omega
      rw [hall]
      simp
    · rw [containsKey_cons, if_neg hk] at hc
      rw [List.filter_cons_of_pos (by simp; exact fun h => hk h.symm)]
      simp only [List.length_cons]
      rw [ih hs.1 hc]

theorem entryBytes_flatten_filter :
    ∀ (m : List (Int × Int)),
      (m.map entryBytes).flatten =
        ((m.filter (fun e => decide (e.1 ≠ PSEUDO_EOF))).map
          (fun e => e.1 % 256 :: (intBytes e.2 ++ [32]))).flatten := by
  intro m
  induction m with
  | nil => rfl
  | cons e m ih =>
    rcases e with ⟨ch, f⟩
    by_cases hch : ch = PSEUDO_EOF
    · subst hch
      rw [List.map_cons, List.flatten_cons, List.filter_cons_of_neg (by simp)]
      have he : entryBytes (PSEUDO_EOF, f) = [] := by simp [entryBytes]
      rw [he, List.nil_append, ih]
    · rw [List.map_cons, List.flatten_cons,
        List.filter_cons_of_pos (by simp; exact hch)]
      rw [List.map_cons, List.flatten_cons]
      simp only [entryBytes, if_neg hch]
      rw [ih]

theorem pathLeaf_leaf (ch w : Int) :
    pathLeaf (NodeP.mk ch w NodeP.null NodeP.null) [] = some ch := rfl

theorem pathLeaf_null : ∀ (r : List Bool), pathLeaf NodeP.null r = none := by
  intro r
  cases r <;> rfl

theorem pathLeaf_cons (ch w : Int) (z o : NodeP) (d : Bool) (p : List Bool) :
    pathLeaf (NodeP.mk ch w z o) (d :: p) = pathLeaf (if d then o else z) p := by
  cases z <;> cases o <;> rfl

theorem pathLeaf_nil_shape (t : NodeP) (c : Int) (h : pathLeaf t [] = some c) :
    ∃ w, t = NodeP.mk c w NodeP.null NodeP.null := by
  cases t with
  | null => rw [pathLeaf_null] at h; exact absurd h (by simp)
  | mk ch w z o =>
    cases z with
    | null =>
      cases o with
      | null =>
        rw [pathLeaf_leaf] at h
        injection h with h2
        exact ⟨w, by rw [h2]⟩
      | mk a b cc d => exact absurd h (by simp [pathLeaf])
    | mk a b cc d =>
      cases o <;> exact absurd h (by simp [pathLeaf])

theorem pathLeaf_no_extension :
    ∀ (p : List Bool) (t : NodeP) (r : List Bool) (c d : Int),
      pathLeaf t p = some c → pathLeaf t (p ++ r) = some d → r = [] := by
  intro p
  induction p with
  | nil =>
    intro t r c d hp hr
    obtain ⟨w, rfl⟩ := pathLeaf_nil_shape t c hp
    cases r with
    | nil => rfl
    | cons x r2 =>
      rw [List.nil_append, pathLeaf_cons] at hr
      have hnull : (if x then NodeP.null else NodeP.null) = NodeP.null := by
        cases x <;> rfl
      rw [hnull, pathLeaf_null] at hr
      exact absurd hr (by simp)
  | cons x p ih =>
    intro t r c d hp hr
    cases t with
    | null => rw [pathLeaf_null] at hp; exact absurd hp (by simp)
    | mk ch w z o =>
      rw [pathLeaf_cons] at hp
      rw [List.cons_append, pathLeaf_cons] at hr
      exact ih (if x then o else z) r c d hp hr

/-! ## The claims -/

/-- C1 counterexample: the claim quantifies over every finite byte sequence
including the empty one, but compressing the empty sequence yields the
two-byte file `"0 "` with an empty body (the sentinel's code from a
single-leaf tree is the empty string), and decompressing that file crashes
on a `NULL` dereference instead of writing the empty output. -/
theorem C1_empty_round_trip_fails :
    compress [] = some [48, 32] ∧
    decompress (8 * 2 + 1) [48, 32] = RunResult.crash [] ∧
    RunResult.crash [] ≠ RunResult.ok [] := by decide

/-- C1 (amended): for every non-empty finite byte sequence `S`, running
`compress` on a source containing `S` and then `decompress` on the
resulting output (header plus bit-packed body) writes exactly `S` to the
final output sink; the empty sequence instead crashes the decoder. -/
theorem C1_round_trip (s : List Int) (hne : s ≠ [])
    (hb : ∀ c ∈ s, 0 ≤ c ∧ c ≤ 255) (f : List Int) (hf : compress s = some f) :
    decompress (8 * f.length + 1) f = RunResult.ok s := by
  obtain ⟨f0, hf0, hall⟩ := compress_decompress s hne hb
  rw [hf] at hf0
  injection hf0 with h1
  rw [h1]
  exact hall (8 * f0.length + 1) (by omega)

theorem C1_round_trip_witness :
    compress [65, 66, 65] = some [50, 32, 65, 50, 32, 66, 49, 32, 50] ∧
    decompress (8 * [50, 32, 65, 50, 32, 66, 49, 32, 50].length + 1)
      [50, 32, 65, 50, 32, 66, 49, 32, 50] = RunResult.ok [65, 66, 65] :=
  ⟨by decide, C1_round_trip [65, 66, 65] (by decide) (by decide)
    [50, 32, 65, 50, 32, 66, 49, 32, 50] (by decide)⟩

/-- C2 counterexample: the encoding tree built from the frequency map
`{A: 2, PSEUDO_EOF: 1}` is a real tree of the program, and feeding
`decodeFile` an exhausted bit source (no bits at all, so no leaf can be
reached) makes it crash on a `NULL` dereference — it does not signal any
`TruncatedStream`-style failure. -/
theorem C2_truncated_crash :
    buildEncodingTree [(65, 2), (256, 1)] =
      some (NodeP.mk 257 3 (NodeP.mk 256 1 NodeP.null NodeP.null)
        (NodeP.mk 65 2 NodeP.null NodeP.null)) ∧
    decodeFile (NodeP.mk 257 3 (NodeP.mk 256 1 NodeP.null NodeP.null)
      (NodeP.mk 65 2 NodeP.null NodeP.null)) 5 [] = DecodeResult.crash [] := by decide

/-- C2 (amended): `decodeFile` performs no truncation detection.  On an
exhausted bit source `readBit` returns `-1`, the decoder appends the text
`"-1"` to its code, and the walk takes the `one` branch twice per read;
for any encoding tree whose root's `one` child is a leaf this dereferences
the leaf's `NULL` child and crashes, with no failure signalled and no
output written. -/
theorem C2_no_truncation_detection (w wl chl : Int) (z : NodeP) (fuel : Nat)
    (hf : 1 ≤ fuel) :
    decodeFile (NodeP.mk NOT_A_CHAR w z (NodeP.mk chl wl NodeP.null NodeP.null)) fuel []
      = DecodeResult.crash [] := by
  obtain ⟨fl, rfl⟩ : ∃ fl, fuel = Nat.succ fl := by
    cases fuel with
    | zero => omega
    | succ fl => exact ⟨fl, rfl⟩
  rw [decodeFile, decodeFileGo_succ]
  have hib : ([] : List Int) ++ intBytes (readBitM ([] : List Int)).1 = [45, 49] := by decide
  rw [hib]
  have hwalk : walkChars
      (NodeP.mk NOT_A_CHAR w z (NodeP.mk chl wl NodeP.null NodeP.null)) [45, 49]
      = some NodeP.null := by
    rw [walkChars_cons_mk, if_neg (by omega), walkChars_cons_mk, if_neg (by omega),
      walkChars_nil]
  rw [searchCodeInTree_of_walk_null _ _ hwalk]

theorem C2_no_truncation_detection_witness :
    (1 : Nat) ≤ 5 ∧
    decodeFile (NodeP.mk NOT_A_CHAR 3 (NodeP.mk 256 1 NodeP.null NodeP.null)
      (NodeP.mk 65 2 NodeP.null NodeP.null)) 5 [] = DecodeResult.crash [] :=
  ⟨by decide, C2_no_truncation_detection 3 2 65
    (NodeP.mk 256 1 NodeP.null NodeP.null) 5 (by decide)⟩

/-- C3 (code bug): compressing the zero-length input does produce the
header `'0'` then one space (bytes `[48, 32]`) and a body consisting
solely of the sentinel's code — but that code is the EMPTY bit string,
because `searchCharacterInTree` returns `""` for the root of the
degenerate single-leaf tree.  Decompressing the resulting file therefore
does not write a zero-length output and stop: the decoder immediately
reads `-1` from the exhausted bit source and crashes dereferencing the
lone leaf's `NULL` child. -/
theorem C3_empty_input_crash :
    compress [] = some [48, 32] ∧
    buildEncodingTree (getFrequencyTable []) =
      some (NodeP.mk 256 1 NodeP.null NodeP.null) ∧
    searchCharacterInTree (NodeP.mk 256 1 NodeP.null NodeP.null) PSEUDO_EOF = some [] ∧
    decompress (8 * 2 + 1) [48, 32] = RunResult.crash [] := by decide

/-- C4: for every non-empty input consisting of a single byte value
repeated `n` times, compressing and then decompressing restores exactly
the original `n` copies, despite the two-leaf tree edge case. -/
theorem C4_single_symbol_round_trip (b : Int) (n : Nat) (hb0 : 0 ≤ b) (hb1 : b ≤ 255)
    (hn : 1 ≤ n) (f : List Int) (hf : compress (List.replicate n b) = some f) :
    decompress (8 * f.length + 1) f = RunResult.ok (List.replicate n b) := by
  have hne : List.replicate n b ≠ [] := by
    intro h
    have := congrArg List.length h
    simp at this
    omega
  have hbs : ∀ c ∈ List.replicate n b, 0 ≤ c ∧ c ≤ 255 := by
    intro c hc
    rw [List.eq_of_mem_replicate hc]
    exact ⟨hb0, hb1⟩
  obtain ⟨f0, hf0, hall⟩ := compress_decompress (List.replicate n b) hne hbs
  rw [hf] at hf0
  injection hf0 with h1
  rw [h1]
  exact hall (8 * f0.length + 1) (by omega)

theorem C4_single_symbol_round_trip_witness :
    compress (List.replicate 3 65) = some [49, 32, 65, 51, 32, 7] ∧
    decompress (8 * [49, 32, 65, 51, 32, 7].length + 1) [49, 32, 65, 51, 32, 7]
      = RunResult.ok (List.replicate 3 65) :=
  ⟨by decide, C4_single_symbol_round_trip 65 3 (by decide) (by decide) (by decide)
    [49, 32, 65, 51, 32, 7] (by decide)⟩

/-- C5: for every frequency map whose non-sentinel keys are byte values
with positive counts and which contains `PSEUDO_EOF` with count 1,
parsing the header written from the map recovers the map exactly. -/
theorem C5_header_round_trip (m : List (Int × Int)) (hwf : wfFreqB m = true)
    (h : List Int) (hw : writeFileHeader [] m = Except.ok h) :
    readFileHeader h = some (m, []) := by
  have hhdr : wfHdr m = true := by
    simp only [wfFreqB, Bool.and_eq_true, List.all_eq_true] at hwf
    simp only [wfHdr, Bool.and_eq_true, List.all_eq_true]
    refine ⟨⟨hwf.1.1, ?_⟩, hwf.2⟩
    intro e he
    have := hwf.1.2 e he
    simp only [Bool.or_eq_true, Bool.and_eq_true, decide_eq_true_eq] at this ⊢
    tauto
  have := header_roundtrip m hhdr h hw []
  simpa using this

theorem C5_header_round_trip_witness :
    wfFreqB [(65, 2), (256, 1)] = true ∧
    readFileHeader [49, 32, 65, 50, 32] = some ([(65, 2), (256, 1)], []) :=
  ⟨by decide, C5_header_round_trip [(65, 2), (256, 1)] (by decide)
    [49, 32, 65, 50, 32] (by rfl)⟩

/-- C6: when the frequency map lacks `PSEUDO_EOF`, `writeFileHeader` fails
with its missing-sentinel error and the sink is unchanged (the error value
carries the sink contents at the moment of failure, which are exactly the
initial contents). -/
theorem C6_missing_sentinel (m : List (Int × Int)) (outfile : List Int)
    (h : containsKey PSEUDO_EOF m = false) :
    writeFileHeader outfile m = Except.error (HdrErr.missingSentinel, outfile) := by
  simp [writeFileHeader, h]

theorem C6_missing_sentinel_witness :
    containsKey PSEUDO_EOF [(65, 2)] = false ∧
    writeFileHeader [9, 9] [(65, 2)] = Except.error (HdrErr.missingSentinel, [9, 9]) :=
  ⟨by decide, C6_missing_sentinel [(65, 2)] [9, 9] (by decide)⟩

/-- C7: for every frequency map containing `PSEUDO_EOF`, the header is the
decimal ASCII count of distinct symbols excluding the sentinel, one space,
then per non-sentinel entry the raw symbol byte, its decimal frequency and
one space; no entry is written for the sentinel. -/
theorem C7_header_format (m : List (Int × Int)) (hsort : sortedKeysB m = true)
    (hck : containsKey PSEUDO_EOF m = true) :
    writeFileHeader [] m = Except.ok
      (intBytes (((m.filter (fun e => decide (e.1 ≠ PSEUDO_EOF))).length : Int)) ++ [32] ++
        ((m.filter (fun e => decide (e.1 ≠ PSEUDO_EOF))).map
          (fun e => e.1 % 256 :: (intBytes e.2 ++ [32]))).flatten) := by
  rw [writeFileHeader_ok m [] hck]
  have hlen := sorted_contains_len PSEUDO_EOF m hsort hck
  have hn : ((m.length : Int) - 1)
      = (((m.filter (fun e => decide (e.1 ≠ PSEUDO_EOF))).length : Int)) := by
    rw [hlen]
    push_cast
    ring
  rw [hn, entryBytes_flatten_filter]
  simp

theorem C7_header_format_witness :
    sortedKeysB [(65, 2), (256, 1)] = true ∧
    containsKey PSEUDO_EOF [(65, 2), (256, 1)] = true ∧
    writeFileHeader [] [(65, 2), (256, 1)] = Except.ok
      (intBytes ((([(65, 2), (256, 1)].filter
          (fun e => decide (e.1 ≠ PSEUDO_EOF))).length : Int)) ++ [32] ++
        (([(65, 2), (256, 1)].filter (fun e => decide (e.1 ≠ PSEUDO_EOF))).map
          (fun e => e.1 % 256 :: (intBytes e.2 ++ [32]))).flatten) :=
  ⟨by decide, by decide, C7_header_format [(65, 2), (256, 1)] (by decide) (by decide)⟩

/-- C8: on every well-formed encoding tree and every 0/1 bit sequence on
which the spec's reference decoder (cursor descent from the root,
emit-and-reset at non-sentinel leaves, stop at the sentinel leaf)
terminates, `decodeFile` consumes the same bits and writes the same byte
sequence. -/
theorem C8_decoder_refinement (t : NodeP) (hwf : wfB t = true) (bits : List Int)
    (hbits : ∀ b ∈ bits, b = 0 ∨ b = 1) (out rest : List Int)
    (href : refDecode t bits t [] = some (out, rest)) (fuel : Nat)
    (hfuel : bits.length ≤ fuel) :
    decodeFile t fuel bits = DecodeResult.ok out rest := by
  rw [decodeFile]
  exact decode_sim t hwf bits hbits fuel t [] [] out rest hfuel (walkChars_nil t)
    (wfB_ne_null t hwf) href

theorem C8_decoder_refinement_witness :
    wfB (NodeP.mk 257 4 (NodeP.mk 66 2 NodeP.null NodeP.null)
      (NodeP.mk 257 2 (NodeP.mk 65 1 NodeP.null NodeP.null)
        (NodeP.mk 256 1 NodeP.null NodeP.null))) = true ∧
    refDecode (NodeP.mk 257 4 (NodeP.mk 66 2 NodeP.null NodeP.null)
      (NodeP.mk 257 2 (NodeP.mk 65 1 NodeP.null NodeP.null)
        (NodeP.mk 256 1 NodeP.null NodeP.null))) [0, 1, 1]
      (NodeP.mk 257 4 (NodeP.mk 66 2 NodeP.null NodeP.null)
        (NodeP.mk 257 2 (NodeP.mk 65 1 NodeP.null NodeP.null)
          (NodeP.mk 256 1 NodeP.null NodeP.null))) [] = some ([66], []) ∧
    decodeFile (NodeP.mk 257 4 (NodeP.mk 66 2 NodeP.null NodeP.null)
      (NodeP.mk 257 2 (NodeP.mk 65 1 NodeP.null NodeP.null)
        (NodeP.mk 256 1 NodeP.null NodeP.null))) 3 [0, 1, 1]
      = DecodeResult.ok [66] [] :=
  ⟨by decide, by decide,
    C8_decoder_refinement _ (by decide) [0, 1, 1] (by decide) [66] [] (by decide)
      3 (by decide)⟩

/-- C9: in any tree built by `buildEncodingTree` from a non-empty
frequency map, the root-to-leaf branch-choice sequences form a prefix
code: if one leaf's code is a prefix of another leaf's code, the two codes
(and hence the leaves) coincide. -/
theorem C9_no_code_dominates (m : List (Int × Int)) (hne : m ≠ []) (t : NodeP)
    (ht : buildEncodingTree m = some t) (p q : List Bool) (c d : Int)
    (hp : pathLeaf t p = some c) (hq : pathLeaf t q = some d)
    (hpq : ∃ r, p ++ r = q) : p = q := by
  obtain ⟨r, hr⟩ := hpq
  have hrnil : r = [] := pathLeaf_no_extension p t r c d hp (by rw [hr]; exact hq)
  rw [← hr, hrnil]
  simp

theorem C9_no_code_dominates_witness :
    ([(65, 1), (66, 2), (256, 1)] : List (Int × Int)) ≠ [] ∧
    buildEncodingTree [(65, 1), (66, 2), (256, 1)] =
      some (NodeP.mk 257 4 (NodeP.mk 66 2 NodeP.null NodeP.null)
        (NodeP.mk 257 2 (NodeP.mk 65 1 NodeP.null NodeP.null)
          (NodeP.mk 256 1 NodeP.null NodeP.null))) ∧
    pathLeaf (NodeP.mk 257 4 (NodeP.mk 66 2 NodeP.null NodeP.null)
      (NodeP.mk 257 2 (NodeP.mk 65 1 NodeP.null NodeP.null)
        (NodeP.mk 256 1 NodeP.null NodeP.null))) [true, false] = some 65 ∧
    ([true, false] : List Bool) = [true, false] :=
  ⟨by decide, by decide, by decide,
    C9_no_code_dominates [(65, 1), (66, 2), (256, 1)] (by decide)
      (NodeP.mk 257 4 (NodeP.mk 66 2 NodeP.null NodeP.null)
        (NodeP.mk 257 2 (NodeP.mk 65 1 NodeP.null NodeP.null)
          (NodeP.mk 256 1 NodeP.null NodeP.null))) (by decide)
      [true, false] [true, false] 65 65 (by decide) (by decide) ⟨[], by decide⟩⟩

/-- C10: when a byte's symbol does not occur as a leaf of the encoding
tree, `searchCharacterInTree` returns the empty string, so `encodeFile`
writes zero bits for that byte and continues without signalling any
error — the byte is silently omitted from the encoded stream. -/
theorem C10_missing_symbol_skipped (t : NodeP) (hwf : wfB t = true) (c : Int)
    (hc0 : 0 ≤ c) (hc1 : c ≤ 255) (hno : c ∉ leafSyms t)
    (xs ys : List Int) (hxy : ∀ x ∈ xs ++ ys, 0 ≤ x ∧ x ≤ 255) :
    searchCharacterInTree t c = some [] ∧
      encodeFile t (xs ++ c :: ys) = encodeFile t (xs ++ ys) := by
  have hc257 : c ≠ NOT_A_CHAR := by simp only [NOT_A_CHAR]; omega
  obtain ⟨p, hp, _, _, hout⟩ := searchCharacterInTree_total t hwf c hc257
  have hpnil : p = [] := hout hno
  subst hpnil
  refine ⟨hp, ?_⟩
  have hsome : ∀ x : Int, 0 ≤ x → x ≤ 255 → ∃ px, searchCharacterInTree t x = some px := by
    intro x h0 h1
    obtain ⟨px, hpx, _, _, _⟩ := searchCharacterInTree_total t hwf x
      (by simp only [NOT_A_CHAR]; omega)
    exact ⟨px, hpx⟩
  have heof : ∃ pe, searchCharacterInTree t PSEUDO_EOF = some pe := by
    obtain ⟨pe, hpe, _, _, _⟩ := searchCharacterInTree_total t hwf PSEUDO_EOF
      (by simp [PSEUDO_EOF, NOT_A_CHAR])
    exact ⟨pe, hpe⟩
  have hall1 : ∀ x ∈ xs ++ c :: ys, ∃ px, searchCharacterInTree t x = some px := by
    intro x hx
    rcases List.mem_append.mp hx with hx | hx
    · have := hxy x (List.mem_append.mpr (Or.inl hx))
      exact hsome x this.1 this.2
    · rcases List.mem_cons.mp hx with rfl | hx
      · exact ⟨[], hp⟩
      · have := hxy x (List.mem_append.mpr (Or.inr hx))
        exact hsome x this.1 this.2
  have hall2 : ∀ x ∈ xs ++ ys, ∃ px, searchCharacterInTree t x = some px := by
    intro x hx
    have := hxy x hx
    exact hsome x this.1 this.2
  rw [encodeFile, encodeFile,
    encodeFileGo_closed t (xs ++ c :: ys) [] hall1 heof (by simp),
    encodeFileGo_closed t (xs ++ ys) [] hall2 heof (by simp)]
  simp [hp, writeBits_nil]

theorem C10_missing_symbol_skipped_witness :
    wfB (NodeP.mk 257 4 (NodeP.mk 66 2 NodeP.null NodeP.null)
      (NodeP.mk 257 2 (NodeP.mk 65 1 NodeP.null NodeP.null)
        (NodeP.mk 256 1 NodeP.null NodeP.null))) = true ∧
    (67 : Int) ∉ leafSyms (NodeP.mk 257 4 (NodeP.mk 66 2 NodeP.null NodeP.null)
      (NodeP.mk 257 2 (NodeP.mk 65 1 NodeP.null NodeP.null)
        (NodeP.mk 256 1 NodeP.null NodeP.null))) ∧
    searchCharacterInTree (NodeP.mk 257 4 (NodeP.mk 66 2 NodeP.null NodeP.null)
      (NodeP.mk 257 2 (NodeP.mk 65 1 NodeP.null NodeP.null)
        (NodeP.mk 256 1 NodeP.null NodeP.null))) 67 = some [] ∧
    encodeFile (NodeP.mk 257 4 (NodeP.mk 66 2 NodeP.null NodeP.null)
      (NodeP.mk 257 2 (NodeP.mk 65 1 NodeP.null NodeP.null)
        (NodeP.mk 256 1 NodeP.null NodeP.null))) [65, 67, 66]
      = encodeFile (NodeP.mk 257 4 (NodeP.mk 66 2 NodeP.null NodeP.null)
        (NodeP.mk 257 2 (NodeP.mk 65 1 NodeP.null NodeP.null)
          (NodeP.mk 256 1 NodeP.null NodeP.null))) [65, 66] :=
  ⟨by decide, by decide,
    (C10_missing_symbol_skipped _ (by decide) 67 (by decide) (by decide) (by decide)
      [65] [66] (by decide)).1,
    (C10_missing_symbol_skipped _ (by decide) 67 (by decide) (by decide) (by decide)
      [65] [66] (by decide)).2⟩

end Huffman
